import Mathlib

/-!
# Verification of `shennong/features.py` (the `Features` data model)

Shallow embedding of the `Features` class of `src/shennong/features.py`:
its validation, equality, approximate equality, copy/subsampling,
dictionary (de)serialization and concatenation.  Every definition is
translated from the Python source; where a helper of this repository is
not part of the given sources (`shennong.utils.dict_equal`), it is
modelled from the specification and marked as such.

Modelling conventions:

* A floating point scalar is modelled by `Val`: either a finite rational
  number, `+inf`, `-inf`, or `nan`.  The comparisons mirror the IEEE /
  numpy behaviour that the source relies on: `np.isclose` and the `==`
  used by `np.array_equal` are false on `nan`, true on equal infinities;
  numpy's sorts order values as `-inf < finite < +inf < nan`.
* A 2-D numpy array is a `List (List Val)` (row major).  Numpy arrays
  are rectangular by construction; rectangularity appears as an explicit
  hypothesis (`Mat.rect`) where a theorem needs it.
* `times` is either a 1-D or a 2-D array (`TArr`).
* Python `raise ValueError(msg)` becomes `Except.error msg`; all the
  functions below are total.
* `properties` dictionaries are modelled as ordered association lists
  (`Props`) of `PropVal` trees, with Python `dict.update` semantics
  (update in place, append new keys).  In the pure part of the model
  `copy.deepcopy` is the identity (the trees are immutable values); the
  aliasing/mutation content of `concatenate`'s property merge is treated
  separately with an explicit heap model at the end of the file.
-/

/-- A numpy floating point scalar: finite value, infinities or `nan`. -/
inductive Val where
  | fin : ℚ → Val
  | pinf : Val
  | ninf : Val
  | nan : Val
deriving DecidableEq, Repr

instance : Inhabited Val := ⟨Val.fin 0⟩

namespace Val

/-- `True` for finite values only: models `np.isfinite`. -/
def isFinite : Val → Bool
  | fin _ => true
  | _ => false

/-- Elementwise `==` as used by `np.array_equal`: `nan` is not equal to
anything (itself included), infinities compare equal to themselves. -/
def eqv : Val → Val → Bool
  | fin a, fin b => a == b
  | pinf, pinf => true
  | ninf, ninf => true
  | _, _ => false

/-- The total order used by numpy's sorts: `-inf < finite < +inf < nan`
(`nan` is sorted to the end). -/
def sortLe : Val → Val → Bool
  | ninf, _ => true
  | _, ninf => false
  | fin a, fin b => a ≤ b
  | fin _, _ => true
  | _, fin _ => false
  | pinf, _ => true
  | _, pinf => false
  | nan, nan => true

/-- `np.isclose a b` (with `equal_nan=False`):
`|a - b| <= atol + rtol * |b|` on finite values, true on equal
infinities, false whenever `nan` is involved.  The finite case is
written cross-multiplied over the (positive) denominators so that it is
kernel-computable; `close_fin_iff` below proves it equal to the
`|a - b| <= atol + rtol * |b|` formula of `np.isclose`. -/
def close (rtol atol : ℚ) : Val → Val → Bool
  | fin a, fin b =>
    ((a.num * (b.den : ℤ) - b.num * (a.den : ℤ)).natAbs : ℤ) * ((atol.den : ℤ) * (rtol.den : ℤ))
      ≤ atol.num * (rtol.den : ℤ) * (a.den : ℤ) * (b.den : ℤ)
        + rtol.num * ((b.num.natAbs : ℤ)) * (atol.den : ℤ) * (a.den : ℤ)
  | pinf, pinf => true
  | ninf, ninf => true
  | _, _ => false

theorem sortLe_total : ∀ a b : Val, sortLe a b = true ∨ sortLe b a = true := by
  intro a b
  cases a <;> cases b <;> simp only [sortLe] <;> simp [le_total]

theorem sortLe_trans : ∀ a b c : Val,
    sortLe a b = true → sortLe b c = true → sortLe a c = true := by
  intro a b c
  cases a <;> cases b <;> cases c <;> simp [sortLe]
  exact fun h1 h2 => le_trans h1 h2

theorem eqv_refl_of_ne_nan : ∀ a : Val, a ≠ nan → eqv a a = true := by
  intro a h
  cases a <;> simp [eqv] at h ⊢

theorem mul_den_eq_num (x : ℚ) : x * (x.den : ℚ) = (x.num : ℚ) := by
  nth_rewrite 1 [← Rat.num_div_den x]
  rw [div_mul_cancel₀]
  exact Nat.cast_ne_zero.mpr x.den_ne_zero

/-- The kernel-computable test of `close` on finite values is exactly
the `|a - b| <= atol + rtol * |b|` formula of `np.isclose`. -/
theorem close_fin_iff (rtol atol a b : ℚ) :
    close rtol atol (fin a) (fin b) = true ↔ |a - b| ≤ atol + rtol * |b| := by
  have hD : (0:ℚ) < (a.den : ℚ) * (b.den : ℚ) * (atol.den : ℚ) * (rtol.den : ℚ) := by positivity
  have key : (a.num : ℚ) * (b.den : ℚ) - (b.num : ℚ) * (a.den : ℚ) =
      (a - b) * ((a.den : ℚ) * (b.den : ℚ)) := by
    calc (a.num : ℚ) * (b.den : ℚ) - (b.num : ℚ) * (a.den : ℚ)
        = (a * (a.den : ℚ)) * (b.den : ℚ) - (b * (b.den : ℚ)) * (a.den : ℚ) := by
          rw [mul_den_eq_num, mul_den_eq_num]
      _ = (a - b) * ((a.den : ℚ) * (b.den : ℚ)) := by ring
  have e1 : ((((a.num * (b.den : ℤ) - b.num * (a.den : ℤ)).natAbs : ℤ) *
      ((atol.den : ℤ) * (rtol.den : ℤ)) : ℤ) : ℚ) =
      |a - b| * ((a.den : ℚ) * (b.den : ℚ) * (atol.den : ℚ) * (rtol.den : ℚ)) := by
    push_cast [Int.cast_natAbs]
    rw [key, abs_mul, abs_of_nonneg (by positivity : (0:ℚ) ≤ (a.den : ℚ) * (b.den : ℚ))]
    ring
  have key2 : |b| * (b.den : ℚ) = |(b.num : ℚ)| := by
    rw [← abs_of_nonneg (by positivity : (0:ℚ) ≤ (b.den : ℚ)), ← abs_mul, mul_den_eq_num]
  have e2 : ((atol.num * (rtol.den : ℤ) * (a.den : ℤ) * (b.den : ℤ) +
      rtol.num * ((b.num.natAbs : ℤ)) * (atol.den : ℤ) * (a.den : ℤ) : ℤ) : ℚ) =
      (atol + rtol * |b|) * ((a.den : ℚ) * (b.den : ℚ) * (atol.den : ℚ) * (rtol.den : ℚ)) := by
    push_cast [Int.cast_natAbs]
    rw [← key2, ← mul_den_eq_num atol, ← mul_den_eq_num rtol]
    ring
  simp only [close, decide_eq_true_eq]
  rw [← @Int.cast_le ℚ _ _ _, e1, e2, mul_le_mul_right hD]

theorem close_refl (rtol atol : ℚ) (hr : 0 ≤ rtol) (ha : 0 ≤ atol) :
    ∀ a : Val, a ≠ nan → close rtol atol a a = true := by
  intro a h
  cases a with
  | fin q =>
    rw [close_fin_iff]
    simp only [sub_self, abs_zero]
    positivity
  | pinf => rfl
  | ninf => rfl
  | nan => exact absurd rfl h

end Val

/-- Default `rtol` of `np.allclose` / `np.isclose` (`1e-5`), given in
normal form to keep it kernel-computable. -/
def npRtol : ℚ := Rat.mk' 1 100000
/-- Default `atol` of `np.allclose` / `np.isclose` (`1e-8`). -/
def npAtol : ℚ := Rat.mk' 1 100000000

/-! ## 2-D arrays and times arrays -/

/-- A 2-D numpy array, row major. -/
abbrev Mat := List (List Val)

namespace Mat

/-- Rectangularity: every row has the length of the first row.  A numpy
array of `ndim == 2` always satisfies this; it is kept as an explicit
hypothesis since nested lists are more general than numpy arrays. -/
def rect (m : Mat) : Prop := ∀ r ∈ m, r.length = (m.headD []).length

/-- `shape[1]` of a 2-D array: the length of a row. -/
def ncols (m : Mat) : Nat := (m.headD []).length

/-- All entries finite: `np.all(np.isfinite(m))`. -/
def allFinite (m : Mat) : Bool := m.all fun r => r.all Val.isFinite

/-- Elementwise comparison of two same-shape 2-D arrays by `cmp`.
On equal-shape (rectangular) arrays this is numpy's elementwise `all`. -/
def all2 (cmp : Val → Val → Bool) (m1 m2 : Mat) : Bool :=
  m1.length == m2.length &&
    (m1.zip m2).all fun rr =>
      rr.1.length == rr.2.length && (rr.1.zip rr.2).all fun vv => cmp vv.1 vv.2

end Mat

/-- The `times` attribute: a 1-D array (one timestamp per frame) or a
2-D array (one row of timestamps per frame). -/
inductive TArr where
  | one : List Val → TArr
  | two : List (List Val) → TArr
deriving DecidableEq, Repr

namespace TArr

/-- `times.shape[0]`: the number of frames. -/
def nframes : TArr → Nat
  | one ts => ts.length
  | two ts => ts.length

/-- `times[:k]` (used by the trimming in `concatenate`). -/
def take (k : Nat) : TArr → TArr
  | one ts => one (ts.take k)
  | two ts => two (ts.take k)

/-- `np.array_equal` on two times arrays: shapes must match, then
elementwise `==` (false on `nan`). -/
def arrayEqual : TArr → TArr → Bool
  | one t1, one t2 =>
    t1.length == t2.length && (t1.zip t2).all fun vv => Val.eqv vv.1 vv.2
  | two t1, two t2 => Mat.all2 Val.eqv t1 t2
  | _, _ => false

/-- `np.allclose(t1, t2)` on two times arrays with the default
tolerances, as a partial operation: `none` models the `ValueError`
numpy raises when the shapes cannot be broadcast together.  Numpy's
length-1 broadcasting is outside the domain used by the claims and is
modelled as a failure as well. -/
def allclose : TArr → TArr → Option Bool
  | one t1, one t2 =>
    if t1.length = t2.length then
      some ((t1.zip t2).all fun vv => Val.close npRtol npAtol vv.1 vv.2)
    else none
  | two t1, two t2 =>
    if t1.length = t2.length ∧ (t1.zip t2).all (fun rr => rr.1.length == rr.2.length) then
      some (Mat.all2 (Val.close npRtol npAtol) t1 t2)
    else none
  | _, _ => none

/-- No `nan` anywhere in the times array. -/
def noNan : TArr → Prop
  | one ts => ∀ v ∈ ts, v ≠ Val.nan
  | two ts => ∀ r ∈ ts, ∀ v ∈ r, v ≠ Val.nan

end TArr

/-! ## The stable sort underlying `np.argsort` / `np.lexsort`

`Features.validate` checks that `times` is sorted by computing
`np.argsort(times)` (1-D) or `np.lexsort(times.T)` (2-D) and requiring
the resulting index permutation to be the identity.  Both are modelled
with a stable insertion argsort; numpy's tie handling (observed
behaviour: ties keep their relative order on the array sizes at stake)
makes the identity check succeed exactly on inputs that are
nondecreasing for the corresponding key order. -/

/-- Insert into a sorted list, before the first strictly larger element
(stable insertion). -/
def oinsert (le : α → α → Bool) (a : α) : List α → List α
  | [] => [a]
  | b :: l => if le a b then a :: b :: l else b :: oinsert le a l

/-- Stable insertion sort. -/
def isort (le : α → α → Bool) : List α → List α
  | [] => []
  | a :: l => oinsert le a (isort le l)

/-- `np.argsort`-style index permutation: the indices `0, ..., n-1`
stably sorted by the keys `xs[i]`. -/
def argsortIdx [Inhabited α] (le : α → α → Bool) (xs : List α) : List Nat :=
  isort (fun i j => le (xs.getD i default) (xs.getD j default)) (List.range xs.length)

/-- The check `all(n == index[n] for n in range(nframes))` of
`Features.validate`, for a given key order, with the argsort modelled
by the STABLE sort above.  This is exact for `np.lexsort` (documented
stable) and for 1-D keys without ties (every correct sort of distinct
keys yields the same permutation, see `isSortPerm_eq_range`), but NOT
for tied 1-D keys: numpy's default `np.argsort` is an unstable
introsort whose partition step scrambles the index tags of equal
elements once the input exceeds the 15-element insertion-sort
threshold (`np.argsort(np.zeros(17))` is not the identity), so on such
inputs this model accepts where the program may raise.  Theorems about
the tie region must therefore either avoid asserting acceptance
(C5 quantifies only where every sorting permutation gives the same
verdict) or use validity purely as a hypothesis, where the wider
accept set only enlarges the quantified domain. -/
def sortIdentity [Inhabited α] (le : α → α → Bool) (xs : List α) : Bool :=
  argsortIdx le xs == List.range xs.length

theorem oinsert_of_head (le : α → α → Bool) (a b : α) (l : List α)
    (h : le a b = true) : oinsert le a (b :: l) = a :: b :: l := by
  simp [oinsert, h]

/-- Sorting a list that is already nondecreasing is the identity. -/
theorem isort_eq_self (le : α → α → Bool)
    (l : List α) (h : l.Chain' fun a b => le a b = true) : isort le l = l := by
  induction l with
  | nil => rfl
  | cons a l ih =>
    cases l with
    | nil => rfl
    | cons b l' =>
      have hab : le a b = true := (List.chain'_cons.mp h).1
      have ht := (List.chain'_cons.mp h).2
      simp only [isort] at ih ⊢
      rw [ih ht, oinsert_of_head le a b l' hab]

theorem oinsert_head (le : α → α → Bool) (a : α) (l : List α) :
    (oinsert le a l).head? = some a ∨ (oinsert le a l).head? = l.head? := by
  cases l with
  | nil => left; rfl
  | cons b l =>
    by_cases hab : le a b = true
    · left; simp [oinsert, hab]
    · right; simp [oinsert, hab]

theorem chain'_oinsert (le : α → α → Bool)
    (htot : ∀ a b : α, le a b = true ∨ le b a = true) (a : α) (l : List α)
    (h : l.Chain' fun x y => le x y = true) :
    (oinsert le a l).Chain' fun x y => le x y = true := by
  induction l with
  | nil => simp [oinsert]
  | cons b l ih =>
    by_cases hab : le a b = true
    · simpa [oinsert, hab, List.chain'_cons] using h
    · have hba : le b a = true := (htot a b).resolve_left hab
      have ht := (List.chain'_cons'.mp h).2
      simp only [oinsert, hab, Bool.false_eq_true, if_false]
      rw [List.chain'_cons']
      refine ⟨?_, ih ht⟩
      intro y hy
      rcases oinsert_head le a l with hh | hh
      · rw [hh] at hy
        cases hy
        exact hba
      · rw [hh] at hy
        exact (List.chain'_cons'.mp h).1 y hy

/-- Insertion sort always produces a nondecreasing list (for a total
comparison). -/
theorem chain'_isort (le : α → α → Bool)
    (htot : ∀ a b : α, le a b = true ∨ le b a = true) (l : List α) :
    (isort le l).Chain' fun x y => le x y = true := by
  induction l with
  | nil => simp [isort]
  | cons a l ih => exact chain'_oinsert le htot a (isort le l) ih

theorem getD_of_lt [Inhabited α] (xs : List α) (i : Nat) (h : i < xs.length) :
    xs.getD i default = xs.get ⟨i, h⟩ := by
  simp [List.getD_eq_getElem?_getD, List.getElem?_eq_getElem h]

/-- The STABLE-model argsort-identity check succeeds exactly on lists
that are nondecreasing for the key order.  (For the program this
equivalence is exact where the sort result is algorithm-independent:
under `np.lexsort`, on keys without ties, and in the reject direction
always — see `isSortPerm_range` and `isSortPerm_eq_range`.) -/
theorem sortIdentity_iff [Inhabited α] (le : α → α → Bool)
    (htot : ∀ a b : α, le a b = true ∨ le b a = true) (xs : List α) :
    sortIdentity le xs = true ↔ xs.Chain' fun a b => le a b = true := by
  have htotIdx : ∀ i j : Nat,
      le (xs.getD i default) (xs.getD j default) = true ∨
      le (xs.getD j default) (xs.getD i default) = true := fun i j => htot _ _
  constructor
  · intro h
    have heq : isort (fun i j => le (xs.getD i default) (xs.getD j default))
        (List.range xs.length) = List.range xs.length := by
      simpa [sortIdentity, argsortIdx] using h
    have hch := chain'_isort _ htotIdx (List.range xs.length)
    rw [heq] at hch
    rw [List.chain'_iff_get] at hch ⊢
    intro i hi
    have h1 : i < (List.range xs.length).length - 1 := by simpa using hi
    have := hch i h1
    have hi0 : i < xs.length := by omega
    have hi1 : i + 1 < xs.length := by omega
    rw [List.get_range, List.get_range, getD_of_lt xs i hi0, getD_of_lt xs (i + 1) hi1] at this
    exact this
  · intro h
    have hch : (List.range xs.length).Chain'
        (fun i j => le (xs.getD i default) (xs.getD j default) = true) := by
      rw [List.chain'_iff_get] at h ⊢
      intro i hi
      have h1 : i < xs.length - 1 := by simpa using hi
      have hi0 : i < xs.length := by omega
      have hi1 : i + 1 < xs.length := by omega
      rw [List.get_range, List.get_range, getD_of_lt xs i hi0, getD_of_lt xs (i + 1) hi1]
      exact h i h1
    have := isort_eq_self _ (List.range xs.length) hch
    unfold sortIdentity argsortIdx
    exact beq_iff_eq.mpr this

/-! ## Properties: Python dictionaries of structured metadata -/

/-- A property value: string, integer, numeric array, list, or nested
dictionary (modelled as an ordered association list, like a Python
dict). -/
inductive PropVal where
  | str : String → PropVal
  | num : Int → PropVal
  | arr : List Val → PropVal
  | list : List PropVal → PropVal
  | dict : List (String × PropVal) → PropVal

/-- A `properties` dictionary. -/
abbrev Props := List (String × PropVal)

/-- `k in d` for a Python dict. -/
def propsHas (p : Props) (k : String) : Bool := p.any fun kv => kv.1 == k

/-- `d[k]` lookup. -/
def propsGet (p : Props) (k : String) : Option PropVal :=
  (p.find? fun kv => kv.1 == k).map fun kv => kv.2

/-- `d[k] = v`: replaces the value in place if the key exists (keeping
the key's position, like a Python dict), appends the key otherwise. -/
def propsSet (p : Props) (k : String) (v : PropVal) : Props :=
  if propsHas p k then p.map fun kv => if kv.1 == k then (k, v) else kv
  else p ++ [(k, v)]

/-- `d.update(q)`: sets every key of `q` in `d`, in order. -/
def propsUpdate (p q : Props) : Props :=
  q.foldl (fun acc kv => propsSet acc kv.1 kv.2) p

mutual
/-- Modelled from the spec: `dict_equal` (`shennong.utils`, whose
source is not among the given files) — "structural equality over
mappings whose values may themselves be mappings or numeric arrays;
numeric-array-valued entries compare by exact element-wise equality;
returns a boolean, never raises".  Modelled as structural equality of
the property trees. -/
def propValEqual : PropVal → PropVal → Bool
  | .str a, .str b => a == b
  | .num a, .num b => a == b
  | .arr a, .arr b => a == b
  | .list a, .list b => propListEqual a b
  | .dict a, .dict b => propFieldsEqual a b
  | _, _ => false

def propListEqual : List PropVal → List PropVal → Bool
  | [], [] => true
  | x :: xs, y :: ys => propValEqual x y && propListEqual xs ys
  | _, _ => false

def propFieldsEqual : List (String × PropVal) → List (String × PropVal) → Bool
  | [], [] => true
  | (k, v) :: xs, (k', v') :: ys => k == k' && propValEqual v v' && propFieldsEqual xs ys
  | _, _ => false
end

/-- Modelled from the spec: `dict_equal` applied to two `properties`
dictionaries. -/
def dictEqual (p q : Props) : Bool := propFieldsEqual p q

mutual
theorem propValEqual_refl : ∀ p : PropVal, propValEqual p p = true
  | .str a => by simp [propValEqual]
  | .num a => by simp [propValEqual]
  | .arr a => by simp [propValEqual]
  | .list l => by simpa [propValEqual] using propListEqual_refl l
  | .dict d => by simpa [propValEqual] using propFieldsEqual_refl d

theorem propListEqual_refl : ∀ l : List PropVal, propListEqual l l = true
  | [] => by simp [propListEqual]
  | x :: xs => by
    simp only [propListEqual, Bool.and_eq_true]
    exact ⟨propValEqual_refl x, propListEqual_refl xs⟩

theorem propFieldsEqual_refl : ∀ d : List (String × PropVal), propFieldsEqual d d = true
  | [] => by simp [propFieldsEqual]
  | (k, v) :: xs => by
    simp only [propFieldsEqual, Bool.and_eq_true, beq_self_eq_true, true_and]
    exact ⟨propValEqual_refl v, propFieldsEqual_refl xs⟩
end

theorem dictEqual_refl (p : Props) : dictEqual p p = true := propFieldsEqual_refl p

/-! ## The `Features` class -/

/-- Row order for the 2-D times case: `np.lexsort(self.times.T)` sorts
with the LAST column of `times` as primary key (`np.lexsort` uses the
last of the given keys as the primary one), the first column second. -/
def lexLastLe (r s : List Val) : Bool :=
  if Val.sortLe (r.getD 1 default) (s.getD 1 default) then
    if Val.sortLe (s.getD 1 default) (r.getD 1 default) then
      Val.sortLe (r.getD 0 default) (s.getD 0 default)
    else true
  else false

theorem lexLastLe_total : ∀ r s : List Val, lexLastLe r s = true ∨ lexLastLe s r = true := by
  intro r s
  unfold lexLastLe
  set a := r.getD 1 default with ha
  set b := s.getD 1 default with hb
  set c := r.getD 0 default with hc
  set d := s.getD 0 default with hd
  by_cases h1 : Val.sortLe a b = true
  · by_cases h2 : Val.sortLe b a = true
    · rcases Val.sortLe_total c d with h3 | h3
      · left; simp [h1, h2, h3]
      · right; simp [h1, h2, h3]
    · left; simp [h1, h2]
  · have h2 : Val.sortLe b a = true := (Val.sortLe_total a b).resolve_left h1
    right; simp [h1, h2]

/-- `index = (np.argsort(self.times) if self.times.ndim == 1 else
np.lexsort(self.times.T))` followed by the identity check
`all(n == index[n] for n in range(self.nframes))` (at the point of the
check the frame counts of `data` and `times` are equal).  The 2-D
branch is exact (`np.lexsort` is stable); the 1-D branch uses the
stable model of `sortIdentity` and is exact only away from tied times
— see the caveat there. -/
def timesSorted : TArr → Bool
  | .one ts => sortIdentity Val.sortLe ts
  | .two ts => sortIdentity lexLastLe ts

/-- The `Features` value: a features matrix, its frame timestamps, and
a metadata dictionary.  The `isinstance` checks of `validate` (data and
times must be numpy arrays, properties a dict) as well as
`data.ndim == 2` and `times.ndim <= 2` are intrinsic to the typing of
the embedding. -/
structure Features where
  data : Mat
  times : TArr
  properties : Props

namespace Features

/-- `shape[0]` of the data. -/
def nframes (f : Features) : Nat := f.data.length

/-- `shape[1]` of the data. -/
def ndims (f : Features) : Nat := f.data.ncols

/-- `(nframes, ndims)` (the `dtype` component of the Python comparison
is not representable: the model has a single scalar type). -/
def shape (f : Features) : Nat × Nat := (f.data.length, f.data.ncols)

/-- The list of dimension errors accumulated by `Features.validate`
(the `data.ndim` and `times.ndim` checks of the source cannot fail in
the typed embedding). -/
def dimErrors (f : Features) : List String :=
  (match f.times with
   | .two ts =>
     if ts.all (fun r => r.length == 2) then []
     else ["times shape[1] must be 2, it is " ++ toString (Mat.ncols ts)]
   | .one _ => []) ++
  (if f.data.length == f.times.nframes then []
   else ["mismatch in number of frames: " ++ toString f.data.length ++
         " for data but " ++ toString f.times.nframes ++ " for times"])

/-- `Features.validate`: dimension checks are accumulated and raised
together, then the time-ordering check, then the finiteness check. -/
def validate (f : Features) : Except String Unit :=
  if f.dimErrors ≠ [] then
    .error ("invalid features dimensions: " ++ String.intercalate ", " f.dimErrors)
  else if ¬ timesSorted f.times then
    .error "times is not sorted in increasing order"
  else if ¬ f.data.allFinite then
    .error "data contains non-finite numbers (nan of infinity)"
  else .ok ()

/-- `Features.is_valid`: `validate` wrapped in `try/except ValueError`.
Every error of the model's `validate` is a `ValueError` of the source,
so the wrapper is total. -/
def is_valid (f : Features) : Bool :=
  match f.validate with
  | .ok _ => true
  | .error _ => false

/-- `Features.__init__(data, times, properties, validate)`. -/
def init (data : Mat) (times : TArr) (properties : Props) (doValidate : Bool) :
    Except String Features :=
  if doValidate then
    match Features.validate ⟨data, times, properties⟩ with
    | .ok _ => .ok ⟨data, times, properties⟩
    | .error e => .error e
  else .ok ⟨data, times, properties⟩

/-- `Features.__eq__` (without the `self is other` identity shortcut,
which is not representable in a value model, and without the `dtype`
comparison, the model having a single scalar type). -/
def eq (a b : Features) : Bool :=
  if a.shape ≠ b.shape then false
  else if ¬ dictEqual a.properties b.properties then false
  else if ¬ a.times.arrayEqual b.times then false
  else if ¬ Mat.all2 Val.eqv a.data b.data then false
  else true

/-- `Features.is_close(other, rtol, atol)`: same chain of checks as
`__eq__` but the `data` matrices are compared with
`np.allclose(..., atol=atol, rtol=rtol)` (and no `dtype` check). -/
def is_close (a b : Features) (rtol atol : ℚ) : Bool :=
  if a.shape ≠ b.shape then false
  else if ¬ dictEqual a.properties b.properties then false
  else if ¬ a.times.arrayEqual b.times then false
  else if ¬ Mat.all2 (Val.close rtol atol) a.data b.data then false
  else true

end Features

/-- Helper for Python slicing with a step: `c` counts down to the next
kept element. -/
def sliceAux (s : Nat) : Nat → List α → List α
  | _, [] => []
  | 0, x :: xs => x :: sliceAux s (s - 1) xs
  | c + 1, _ :: xs => sliceAux s c xs

/-- Python slicing `l[0 : len(l) : s]` for a step `s >= 1`: the
elements at indices `0, s, 2s, ...`. -/
def sliceEvery (s : Nat) (l : List α) : List α := sliceAux s 0 l

/-- The same slicing on a times array. -/
def TArr.takeEvery (s : Nat) : TArr → TArr
  | .one ts => .one (sliceEvery s ts)
  | .two ts => .two (sliceEvery s ts)

/-- `Features.copy(dtype=None, subsample=...)`.  The `dtype` branch of
the source only casts the scalars and slices identically; casting is
outside the single-scalar-type model.  The result is built with
`validate=False`. -/
def Features.copy (f : Features) (subsample : Option Int) : Except String Features :=
  match subsample with
  | none => .ok ⟨sliceEvery 1 f.data, f.times.takeEvery 1, f.properties⟩
  | some s =>
    if s ≤ 0 then
      .error ("subsample must be a strictly positive integer, it is: " ++ toString s)
    else
      .ok ⟨sliceEvery s.toNat f.data, f.times.takeEvery s.toNat, f.properties⟩

/-! ## Dictionary (de)serialization -/

/-- The interchange mapping `_to_dict` / `_from_dict` operate on:
possibly holding the keys `data`, `times` and `properties`. -/
structure FeatDict where
  data : Option Mat
  times : Option TArr
  properties : Option Props

/-- `requested_keys - set(features.keys())` of `_from_dict`.  (Python
iterates a `set`, whose order is unspecified; the model fixes the order
`data`, `times`.) -/
def FeatDict.missingKeys (d : FeatDict) : List String :=
  (if d.data.isNone then ["data"] else []) ++ (if d.times.isNone then ["times"] else [])

/-- `Features._to_dict(with_properties)`. -/
def Features.toDict (f : Features) (withProperties : Bool) : FeatDict :=
  { data := some f.data
    times := some f.times
    properties := if withProperties then some f.properties else none }

/-- `Features._from_dict(features, validate)`: raises naming the
missing required keys if `data` or `times` is absent; `properties`
defaults to the empty dict. -/
def Features.fromDict (d : FeatDict) (doValidate : Bool) : Except String Features :=
  match d.data, d.times with
  | some data, some times => Features.init data times (d.properties.getD []) doValidate
  | _, _ =>
    .error ("cannot read features from dict, missing keys: " ++
      String.intercalate ", " d.missingKeys)

/-! ## `Features.concatenate` (pure part) -/

/-- Shift the `columns` range of one `pipeline` entry right by `nd`:
`columns = entry['columns']; entry['columns'] = [columns[0] + nd,
columns[1] + nd]`.  `none` models the `KeyError`/`TypeError` Python
raises when the entry is not a dict with an indexable numeric
`columns`. -/
def shiftColumns (k : PropVal) (nd : Int) : Option PropVal :=
  match k with
  | .dict d =>
    match propsGet d "columns" with
    | some (.list (.num c0 :: .num c1 :: _)) =>
      some (.dict (propsSet d "columns" (.list [.num (c0 + nd), .num (c1 + nd)])))
    | _ => none
  | _ => none

/-- The loop `for k in other_properties['pipeline']`: append `k` to
`properties['pipeline']`, then reassign the `columns` of the appended
(last) entry, shifted right by `nd`. -/
def appendPipeline (props : Props) (ks : List PropVal) (nd : Int) : Except String Props :=
  match ks with
  | [] => .ok props
  | k :: rest =>
    match propsGet props "pipeline" with
    | some (.list l) =>
      match shiftColumns k nd with
      | some k' => appendPipeline (propsSet props "pipeline" (.list (l ++ [k']))) rest nd
      | none => .error "pipeline entry has no columns range"
    | _ => .error "pipeline is not a list"

/-- First step of the property merge:
`properties.update({k: v for k, v in other_properties.items() if k != 'pipeline'})`
(on the deep copies; deep copy is the identity on the immutable trees
of the pure model — the heap model below covers the aliasing
content). -/
def mergeUpdated (selfP otherP : Props) : Props :=
  propsUpdate selfP (otherP.filter fun kv => kv.1 != "pipeline")

/-- Second step: `if 'pipeline' not in properties:
properties['pipeline'] = []`. -/
def mergeBase (selfP otherP : Props) : Props :=
  if propsHas (mergeUpdated selfP otherP) "pipeline" then mergeUpdated selfP otherP
  else propsSet (mergeUpdated selfP otherP) "pipeline" (.list [])

/-- The property merge of `Features.concatenate` (source lines
422-434): update with the non-pipeline keys of `other`, default the
`pipeline` key, then append `other`'s pipeline entries with shifted
columns.  The errors model the exceptions Python raises on a malformed
`pipeline`. -/
def mergeProperties (selfP otherP : Props) (nd : Int) : Except String Props :=
  if propsHas otherP "pipeline" then
    match propsGet otherP "pipeline" with
    | some (.list ks) => appendPipeline (mergeBase selfP otherP) ks nd
    | _ => .error "pipeline is not a list"
  else .ok (mergeBase selfP otherP)

/-- The `pipeline` list of a properties dict (empty when the key is
absent or not a list). -/
def pipeList (p : Props) : List PropVal :=
  match propsGet p "pipeline" with
  | some (.list l) => l
  | _ => []

/-- `Features.concatenate(other, tolerance)`.  The `log` parameter and
the warning emitted in the trimming branch are side effects outside the
value model.  `np.hstack` on two matrices with the same number of rows
is row-wise append. -/
def Features.concatenate (self other : Features) (tolerance : Nat) : Except String Features :=
  let diff : Nat := ((self.nframes : Int) - (other.nframes : Int)).natAbs
  if diff ≠ 0 ∧ tolerance = 0 then
    .error "features have a different number of frames"
  else if diff ≠ 0 ∧ diff > tolerance then
    .error ("features differs number of frames, and greater than tolerance: |" ++
      toString self.nframes ++ " - " ++ toString other.nframes ++ "| > " ++ toString tolerance)
  else
    let data1 := if diff ≠ 0 ∧ self.nframes > other.nframes
      then self.data.take (self.nframes - diff) else self.data
    let times1 := if diff ≠ 0 ∧ self.nframes > other.nframes
      then self.times.take (self.nframes - diff) else self.times
    let data2 := if diff ≠ 0 ∧ ¬ self.nframes > other.nframes
      then other.data.take (other.nframes - diff) else other.data
    let times2 := if diff ≠ 0 ∧ ¬ self.nframes > other.nframes
      then other.times.take (other.nframes - diff) else other.times
    match TArr.allclose times1 times2 with
    | some true =>
      match mergeProperties self.properties other.properties (self.ndims : Int) with
      | .ok properties =>
        Features.init (List.zipWith (· ++ ·) data1 data2) times1 properties true
      | .error e => .error e
    | _ => .error "times are not equal"

/-! ## Spec-side definitions (for comparison with the code) -/

/-- Boolean chain check: every adjacent pair satisfies `le`. -/
def chainB (le : α → α → Bool) : List α → Bool
  | [] => true
  | [_] => true
  | a :: b :: l => le a b && chainB le (b :: l)

/-- The row order the specification describes for 2-D times: plain
lexicographic order on rows, FIRST column primary.  (The code instead
uses `np.lexsort(times.T)`, whose primary key is the LAST column.) -/
def specLexRowLe (r s : List Val) : Bool :=
  if Val.sortLe (r.getD 0 default) (s.getD 0 default) then
    if Val.sortLe (s.getD 0 default) (r.getD 0 default) then
      Val.sortLe (r.getD 1 default) (s.getD 1 default)
    else true
  else false

/-- The specification's "strictly sorted under a lexicographic sort by
row" reading for 2-D times, in the claim's n-th-smallest sense: the
rows are nondecreasing under row-lexicographic order (first column
primary). -/
def specLexSorted (ts : List (List Val)) : Bool := chainB specLexRowLe ts

/-- Wellformedness of one `pipeline` entry, per the properties
`pipeline` convention of the spec: a mapping with a `columns` field
holding a two-element index range. -/
def entryWF : PropVal → Bool
  | .dict d =>
    match propsGet d "columns" with
    | some (.list (.num _ :: .num _ :: _)) => true
    | _ => false
  | _ => false

/-- Wellformedness of the `pipeline` key of a properties dict: absent,
or a list of wellformed entries. -/
def pipelineWF (p : Props) : Bool :=
  match propsGet p "pipeline" with
  | none => true
  | some (.list ks) => ks.all entryWF
  | some _ => false

/-! ## Heap model of the property merge of `concatenate`

The source mutates Python objects while merging properties:
`properties['pipeline'].append(k)` and
`properties['pipeline'][-1]['columns'] = [...]`.  Both act on the
results of `copy.deepcopy(self.properties)` and
`copy.deepcopy(other.properties)`.  To settle the frame-effect claim
(the operands are never mutated), the merge is re-expressed over an
explicit heap: property objects live in a store addressed by `Nat`,
`deepcopy` allocates fresh cells, and the two mutations update cells in
place.  The theorem then states that no pre-existing cell is ever
written. -/

/-- A heap node: one Python object of a properties structure. -/
inductive HNode where
  | hstr : String → HNode
  | hnum : Int → HNode
  | harr : List Val → HNode
  | hlist : List Nat → HNode
  | hdict : List (String × Nat) → HNode
deriving DecidableEq, Repr

/-- The addresses a node refers to. -/
def hchildren : HNode → List Nat
  | .hlist es => es
  | .hdict fs => fs.map Prod.snd
  | _ => []

/-- A store of property objects; the address of a node is its index. -/
abbrev Store := List HNode

/-- Allocate a fresh cell. -/
def halloc (σ : Store) (n : HNode) : Store × Nat := (σ ++ [n], σ.length)

/-- Overwrite the cell at `a` (Python mutation of the object at `a`). -/
def hset (σ : Store) (a : Nat) (n : HNode) : Store := σ.set a n

/-- `fs[k]` on the field list of a dict node. -/
def fieldsGet (fs : List (String × Nat)) (k : String) : Option Nat :=
  (fs.find? fun kv => kv.1 == k).map Prod.snd

/-- `fs[k] = a` on the field list of a dict node. -/
def fieldsSet (fs : List (String × Nat)) (k : String) (a : Nat) : List (String × Nat) :=
  if fs.any (fun kv => kv.1 == k) then fs.map fun kv => if kv.1 == k then (k, a) else kv
  else fs ++ [(k, a)]

/-- `dict.update` on field lists. -/
def fieldsUpdate (fs qs : List (String × Nat)) : List (String × Nat) :=
  qs.foldl (fun acc kv => fieldsSet acc kv.1 kv.2) fs

mutual
/-- `copy.deepcopy` of the object at `a`: rebuilds the whole object
graph in fresh cells.  `fuel` bounds the recursion depth (Python's
deepcopy handles arbitrary nesting; any tree-shaped value is copied
whole given enough fuel). -/
def hcopy (σ : Store) : Nat → Nat → Option (Store × Nat)
  | 0, _ => none
  | fuel + 1, a =>
    match σ.get? a with
    | none => none
    | some (.hstr s) => some (halloc σ (.hstr s))
    | some (.hnum n) => some (halloc σ (.hnum n))
    | some (.harr v) => some (halloc σ (.harr v))
    | some (.hlist es) =>
      match hcopyList σ fuel es with
      | none => none
      | some (σ', es') => some (halloc σ' (.hlist es'))
    | some (.hdict fs) =>
      match hcopyFields σ fuel fs with
      | none => none
      | some (σ', fs') => some (halloc σ' (.hdict fs'))

def hcopyList (σ : Store) : Nat → List Nat → Option (Store × List Nat)
  | _, [] => some (σ, [])
  | fuel, a :: rest =>
    match hcopy σ fuel a with
    | none => none
    | some (σ', a') =>
      match hcopyList σ' fuel rest with
      | none => none
      | some (σ'', rest') => some (σ'', a' :: rest')

def hcopyFields (σ : Store) : Nat → List (String × Nat) → Option (Store × List (String × Nat))
  | _, [] => some (σ, [])
  | fuel, (k, a) :: rest =>
    match hcopy σ fuel a with
    | none => none
    | some (σ', a') =>
      match hcopyFields σ' fuel rest with
      | none => none
      | some (σ'', rest') => some (σ'', (k, a') :: rest')
end

/-- One iteration of `for k in other_properties['pipeline']`: append
`k` to `properties['pipeline']`, read the appended entry's `columns`,
and overwrite it with the shifted range.  On the Python exceptions
(missing key, wrong type) the loop stops; the store mutated so far is
returned either way. -/
def hmergeLoop (nd : Int) : Store → Nat → List Nat → Store × Bool
  | σ, _, [] => (σ, true)
  | σ, p, k :: rest =>
    match σ.get? p with
    | some (.hdict pf) =>
      match fieldsGet pf "pipeline" with
      | some pl =>
        match σ.get? pl with
        | some (.hlist l) =>
          let σ1 := hset σ pl (.hlist (l ++ [k]))
          match σ1.get? k with
          | some (.hdict kf) =>
            match fieldsGet kf "columns" with
            | some ca =>
              match σ1.get? ca with
              | some (.hlist (c0a :: c1a :: _)) =>
                match σ1.get? c0a, σ1.get? c1a with
                | some (.hnum c0), some (.hnum c1) =>
                  let (σ2, a0) := halloc σ1 (.hnum (c0 + nd))
                  let (σ3, a1) := halloc σ2 (.hnum (c1 + nd))
                  let (σ4, nca) := halloc σ3 (.hlist [a0, a1])
                  let σ5 := hset σ4 k (.hdict (fieldsSet kf "columns" nca))
                  hmergeLoop nd σ5 p rest
                | _, _ => (σ1, false)
              | _ => (σ1, false)
            | none => (σ1, false)
          | _ => (σ1, false)
        | _ => (σ, false)
      | none => (σ, false)
    | _ => (σ, false)

/-- The property merge of `concatenate` over the heap: deep-copy both
operands' properties, update the copy of `self`'s with the non-pipeline
keys of the copy of `other`'s, default `pipeline` to a fresh empty
list, then run the append loop.  Returns the final store and the
address of the merged dict (`none` on a Python exception; the store
mutated so far is returned either way). -/
def hmergeProps (σ : Store) (pa pb : Nat) (nd : Int) (fuel : Nat) : Store × Option Nat :=
  match hcopy σ fuel pa with
  | none => (σ, none)
  | some (σ1, p) =>
    match hcopy σ1 fuel pb with
    | none => (σ1, none)
    | some (σ2, q) =>
      match σ2.get? p, σ2.get? q with
      | some (.hdict pf), some (.hdict qf) =>
        let pf1 := fieldsUpdate pf (qf.filter fun kv => kv.1 != "pipeline")
        let σ3 := hset σ2 p (.hdict pf1)
        let σ4 :=
          if pf1.any (fun kv => kv.1 == "pipeline") then σ3
          else
            let (σ', e) := halloc σ3 (.hlist [])
            hset σ' p (.hdict (fieldsSet pf1 "pipeline" e))
        if qf.any (fun kv => kv.1 == "pipeline") then
          match fieldsGet qf "pipeline" with
          | some plb =>
            match σ4.get? plb with
            | some (.hlist ks) =>
              match hmergeLoop nd σ4 p ks with
              | (σ5, true) => (σ5, some p)
              | (σ5, false) => (σ5, none)
            | _ => (σ4, none)
          | none => (σ4, none)
        else (σ4, some p)
      | _, _ => (σ2, none)

/-- `Features.concatenate` with the property dictionaries living in the
heap: the pure frame-count and times checks, then the heap-level merge,
then the validation of the result.  Returns the store (mutated only
with fresh cells) and either the concatenated data/times and the
address of the merged properties, or the error raised. -/
def concatenateH (σ : Store) (data1M : Mat) (times1M : TArr) (pa : Nat)
    (data2M : Mat) (times2M : TArr) (pb : Nat) (tolerance : Nat) (fuel : Nat) :
    Store × Except String (Mat × TArr × Nat) :=
  let n1 := data1M.length
  let n2 := data2M.length
  let diff : Nat := ((n1 : Int) - (n2 : Int)).natAbs
  if diff ≠ 0 ∧ tolerance = 0 then
    (σ, .error "features have a different number of frames")
  else if diff ≠ 0 ∧ diff > tolerance then
    (σ, .error ("features differs number of frames, and greater than tolerance: |" ++
      toString n1 ++ " - " ++ toString n2 ++ "| > " ++ toString tolerance))
  else
    let data1 := if diff ≠ 0 ∧ n1 > n2 then data1M.take (n1 - diff) else data1M
    let times1 := if diff ≠ 0 ∧ n1 > n2 then times1M.take (n1 - diff) else times1M
    let data2 := if diff ≠ 0 ∧ ¬ n1 > n2 then data2M.take (n2 - diff) else data2M
    let times2 := if diff ≠ 0 ∧ ¬ n1 > n2 then times2M.take (n2 - diff) else times2M
    match TArr.allclose times1 times2 with
    | some true =>
      match hmergeProps σ pa pb (Mat.ncols data1M : Int) fuel with
      | (σ', some p) =>
        let result := List.zipWith (· ++ ·) data1 data2
        match Features.validate ⟨result, times1, []⟩ with
        | .ok _ => (σ', .ok (result, times1, p))
        | .error e => (σ', .error e)
      | (σ', none) => (σ', .error "invalid pipeline properties")
    | _ => (σ, .error "times are not equal")

/-- The claim-side reading of the time-ordering check: "for every index
n, the n-th smallest element (or row) is the element already at
position n", i.e. the frames are nondecreasing for the key order the
code sorts by. -/
def sortedNondecreasing : TArr → Prop
  | .one ts => ts.Chain' fun a b => Val.sortLe a b = true
  | .two ts => ts.Chain' fun r s => lexLastLe r s = true

instance : DecidablePred sortedNondecreasing := fun t =>
  match t with
  | .one ts => inferInstanceAs (Decidable (ts.Chain' fun a b => Val.sortLe a b = true))
  | .two ts => inferInstanceAs (Decidable (ts.Chain' fun r s => lexLastLe r s = true))

/-- The part of the store at addresses `≥ m` is closed: every node
stored at an address `≥ m` refers only to addresses `≥ m`.  This is the
invariant of the merge — every cell it allocates or overwrites lives
above the high-water mark `m` set at entry, and no such cell ever
points back below `m`, so nothing reachable from the operands is
touched. -/
def freshClosed (m : Nat) (σ : Store) : Prop :=
  ∀ j n, m ≤ j → σ.get? j = some n → ∀ c ∈ hchildren n, m ≤ c

/-- `p` is a possible output of an argsort of the keys `xs` under the
key order `le`: a permutation of `0, …, n-1` whose induced reordering
of `xs` is nondecreasing.  `np.argsort` returns SOME such permutation;
which one is reached on tied keys depends on the (unstable, for the
default kind) sort algorithm and is not specified.  The source's check
`all(n == index[n] for n in range(nframes))` therefore has a determined
outcome only where every sorting permutation agrees with the identity
verdict — which is exactly the domain the C5 theorem quantifies over
(`isSortPerm_range`, `isSortPerm_eq_range`). -/
def isSortPerm [Inhabited α] (le : α → α → Bool) (xs : List α) (p : List Nat) : Prop :=
  p.Perm (List.range xs.length) ∧
    chainB le (p.map fun i => xs.getD i default) = true

/-! # Theorems -/

theorem chainB_iff (le : α → α → Bool) (l : List α) :
    chainB le l = true ↔ l.Chain' fun a b => le a b = true := by
  induction l with
  | nil => simp [chainB]
  | cons a l ih =>
    cases l with
    | nil => simp [chainB]
    | cons b l' =>
      rw [List.chain'_cons, ← ih]
      simp [chainB]

theorem timesSorted_iff (t : TArr) : timesSorted t = true ↔ sortedNondecreasing t := by
  cases t with
  | one ts => exact sortIdentity_iff Val.sortLe Val.sortLe_total ts
  | two ts => exact sortIdentity_iff lexLastLe lexLastLe_total ts

theorem validate_ok_iff (f : Features) :
    f.validate = .ok () ↔
      f.dimErrors = [] ∧ timesSorted f.times = true ∧ f.data.allFinite = true := by
  unfold Features.validate
  split_ifs with h1 h2 h3 <;>
    simp_all

theorem is_valid_iff (f : Features) : f.is_valid = true ↔ f.validate = .ok () := by
  unfold Features.is_valid
  cases h : f.validate with
  | ok u => cases u; simp
  | error e => simp

theorem is_valid_parts (f : Features) (h : f.is_valid = true) :
    f.dimErrors = [] ∧ timesSorted f.times = true ∧ f.data.allFinite = true :=
  (validate_ok_iff f).mp ((is_valid_iff f).mp h)

/-- C4: `is_valid()` is a non-raising boolean wrapper over
`validate()`: it is a total function of the model (the embedding of
`validate` raises only `ValueError`, the exception class the wrapper
catches), it returns true exactly when `validate` raises no error and
false exactly when `validate` raises one. -/
theorem is_valid_wraps_validate (f : Features) :
    (f.is_valid = true ↔ f.validate = .ok ()) ∧
    (f.is_valid = false ↔ ∃ e, f.validate = .error e) := by
  refine ⟨is_valid_iff f, ?_⟩
  unfold Features.is_valid
  cases h : f.validate with
  | ok u => cases u; simp
  | error e => simp

theorem map_getD_range [Inhabited α] (xs : List α) :
    (List.range xs.length).map (fun i => xs.getD i default) = xs := by
  apply List.ext_get
  · simp
  · intro i h1 h2
    rw [List.get_map, List.get_range, getD_of_lt xs i h2]

/-- Fidelity of the reject direction of the time-ordering check for ANY
argsort implementation: if the identity permutation is a valid argsort
output at all — in particular if the output of the actual
implementation passes the source's identity check — then the keys were
nondecreasing.  Contrapositively, on keys that are not nondecreasing no
argsort, stable or not, can return the identity, so the real check
fails with certainty and `validate` raises. -/
theorem isSortPerm_range [Inhabited α] (le : α → α → Bool) (xs : List α)
    (h : isSortPerm le xs (List.range xs.length)) : chainB le xs = true := by
  have h2 := h.2
  rw [map_getD_range xs] at h2
  exact h2

/-- Fidelity of the 1-D pass direction for ANY argsort implementation:
on strictly increasing keys (under a transitive key order) the identity
is the ONLY sorting permutation, so the real check passes with
certainty, regardless of the sort algorithm's tie-breaking — there are
no ties to break. -/
theorem isSortPerm_eq_range [Inhabited α] (le : α → α → Bool)
    (htr : ∀ a b c : α, le a b = true → le b c = true → le a c = true)
    (xs : List α) (hs : xs.Chain' fun a b => le a b = true ∧ le b a = false)
    (p : List Nat) (hp : isSortPerm le xs p) : p = List.range xs.length := by
  obtain ⟨hperm, hchain⟩ := hp
  haveI hStrict : IsTrans α (fun a b => le a b = true ∧ le b a = false) := by
    refine ⟨fun a b c h1 h2 => ⟨htr a b c h1.1 h2.1, ?_⟩⟩
    by_contra hca
    have hca' : le c a = true := by
      cases hle : le c a
      · exact absurd hle hca
      · rfl
    have : le b a = true := htr b c a h2.1 hca'
    rw [h1.2] at this
    exact Bool.noConfusion this
  haveI hLe : IsTrans α (fun a b => le a b = true) := ⟨fun a b c => htr a b c⟩
  have hpairS : xs.Pairwise fun a b => le a b = true ∧ le b a = false :=
    List.chain'_iff_pairwise.mp hs
  have hpairM : p.Pairwise fun i j =>
      le (xs.getD i default) (xs.getD j default) = true :=
    List.pairwise_map.mp (List.chain'_iff_pairwise.mp ((chainB_iff _ _).mp hchain))
  have hnodup : p.Nodup := hperm.nodup_iff.mpr (List.nodup_range _)
  have hmem : ∀ x ∈ p, x < xs.length := by
    intro x hx
    exact List.mem_range.mp (hperm.mem_iff.mp hx)
  have hpairS' := List.pairwise_iff_getElem.mp hpairS
  have hpairM' := List.pairwise_iff_getElem.mp hpairM
  have hnodup' := List.pairwise_iff_getElem.mp hnodup
  have hlt : p.Pairwise (· < ·) := by
    rw [List.pairwise_iff_getElem]
    intro k l hk hl hkl
    have hik : p[k] < xs.length := hmem _ (List.getElem_mem hk)
    have hil : p[l] < xs.length := hmem _ (List.getElem_mem hl)
    have hne : p[k] ≠ p[l] := hnodup' k l hk hl hkl
    have hle1 : le (xs.getD p[k] default) (xs.getD p[l] default) = true :=
      hpairM' k l hk hl hkl
    by_contra hge
    have hlt2 : p[l] < p[k] := by omega
    have hstrict := hpairS' p[l] p[k] hil hik hlt2
    rw [getD_of_lt xs p[k] hik, getD_of_lt xs p[l] hil] at hle1
    rw [List.get_eq_getElem, List.get_eq_getElem] at hle1
    rw [hstrict.2] at hle1
    exact Bool.noConfusion hle1
  have hsorted : List.Sorted (· ≤ ·) p := hlt.imp fun h => Nat.le_of_lt h
  exact List.eq_of_perm_of_sorted hperm hsorted (List.sorted_le_range _)

/-- C5 (amended): for a `Features` passing the type, dimension and
frame-count checks and whose data is finite, the time-ordering check of
`validate()` behaves as follows for the key order the code actually
sorts by.  (i) Whenever `times` is not nondecreasing for that order —
plain value order for 1-D times, lexicographic with the LAST column as
primary key for 2-D times (`np.lexsort(times.T)` uses the last key as
the primary one, not plain row-lexicographic order) — `validate` raises
the `times is not sorted in increasing order` ValueError; this holds
for the real program irrespective of the argsort algorithm, since no
sorting permutation of a non-nondecreasing key list is the identity
(`isSortPerm_range`).  (ii) For 1-D times that are STRICTLY increasing
`validate` passes; again algorithm-independent, since on strict keys
the identity is the only sorting permutation (`isSortPerm_eq_range`
with `Val.sortLe_trans`).  (iii) For 2-D times the check passes exactly
on rows nondecreasing in the last-column-primary order (`np.lexsort` is
guaranteed stable, so the stable model is exact there).  Nothing is
asserted for 1-D times with tied values: there the program's outcome
depends on the unstable `np.argsort`'s tie-breaking (numpy rejects
e.g. 17 equal timestamps), which the claim's n-th-smallest gloss does
not determine. -/
theorem validate_sorted_check (f : Features) (hdim : f.dimErrors = [])
    (hfin : f.data.allFinite = true) :
    (¬ sortedNondecreasing f.times →
      f.validate = .error "times is not sorted in increasing order") ∧
    (∀ ts, f.times = .one ts →
      (ts.Chain' fun a b => Val.sortLe a b = true ∧ Val.sortLe b a = false) →
      f.validate = .ok ()) ∧
    (∀ ts, f.times = .two ts →
      (f.validate = .ok () ↔ ts.Chain' fun r s => lexLastLe r s = true)) := by
  refine ⟨?_, ?_, ?_⟩
  · intro hns
    have hts : timesSorted f.times = false := by
      rcases Bool.eq_false_or_eq_true (timesSorted f.times) with h | h
      · exact absurd ((timesSorted_iff f.times).mp h) hns
      · exact h
    unfold Features.validate
    simp [hdim, hts]
  · intro ts hone hstrict
    refine (validate_ok_iff f).mpr ⟨hdim, ?_, hfin⟩
    rw [timesSorted_iff, hone]
    exact hstrict.imp fun _ _ h => h.1
  · intro ts htwo
    rw [validate_ok_iff, timesSorted_iff, htwo]
    constructor
    · exact fun h => h.2.1
    · exact fun h => ⟨hdim, h, hfin⟩

/-- C5 witness: the amended theorem concludes that `validate` succeeds
on a concrete 2-frame `Features` with strictly increasing 1-D times,
and on a concrete one with 2-D times nondecreasing for the
last-column-primary order. -/
theorem validate_sorted_check_witness :
    Features.dimErrors ⟨[[Val.fin 0], [Val.fin 1]], .one [Val.fin 0, Val.fin 1], []⟩ = [] ∧
    Features.validate ⟨[[Val.fin 0], [Val.fin 1]], .one [Val.fin 0, Val.fin 1], []⟩ = .ok () ∧
    Features.validate ⟨[[Val.fin 0], [Val.fin 1]],
        .two [[Val.fin 0, Val.fin 1], [Val.fin 1, Val.fin 2]], []⟩ = .ok () :=
  ⟨by decide,
   (validate_sorted_check ⟨[[Val.fin 0], [Val.fin 1]], .one [Val.fin 0, Val.fin 1], []⟩
       (by decide) (by decide)).2.1 [Val.fin 0, Val.fin 1] rfl
     (List.chain'_pair.mpr (by decide)),
   ((validate_sorted_check ⟨[[Val.fin 0], [Val.fin 1]],
       .two [[Val.fin 0, Val.fin 1], [Val.fin 1, Val.fin 2]], []⟩
       (by decide) (by decide)).2.2 [[Val.fin 0, Val.fin 1], [Val.fin 1, Val.fin 2]]
     rfl).mpr (List.chain'_pair.mpr (by decide))⟩

/-- C5 counterexample: the times rows `(1, 5), (0, 6)` are NOT sorted
under the spec's plain row-lexicographic order (first column primary),
the features pass every other check of the claim's hypotheses, and yet
`validate` raises nothing — `np.lexsort(times.T)` sorts with the last
column as primary key, and `5 <= 6` there. -/
theorem validate_lexsort_counterexample :
    Features.dimErrors ⟨[[Val.fin 0], [Val.fin 0]],
        .two [[Val.fin 1, Val.fin 5], [Val.fin 0, Val.fin 6]], []⟩ = [] ∧
    Mat.allFinite [[Val.fin 0], [Val.fin 0]] = true ∧
    specLexSorted [[Val.fin 1, Val.fin 5], [Val.fin 0, Val.fin 6]] = false ∧
    Features.validate ⟨[[Val.fin 0], [Val.fin 0]],
        .two [[Val.fin 1, Val.fin 5], [Val.fin 0, Val.fin 6]], []⟩ = .ok () := by
  refine ⟨by decide, by decide, by decide, ?_⟩
  rfl

theorem sliceAux_get? (s : Nat) (hs : 1 ≤ s) :
    ∀ (l : List α) (c i : Nat), c < s →
      (sliceAux s c l).get? i = l.get? (i * s + c) := by
  intro l
  induction l with
  | nil => intro c i _; simp [sliceAux]
  | cons x xs ih =>
    intro c i hc
    cases c with
    | zero =>
      cases i with
      | zero => simp [sliceAux]
      | succ j =>
        have h1 : (j + 1) * s + 0 = (j * s + (s - 1)) + 1 := by
          have : 1 ≤ s := hs
          cases s with
          | zero => omega
          | succ s' => ring_nf; omega
        rw [h1]
        simp only [sliceAux, List.get?_cons_succ]
        exact ih (s - 1) j (by omega)
    | succ c' =>
      have h1 : i * s + (c' + 1) = (i * s + c') + 1 := by omega
      rw [h1]
      simp only [sliceAux, List.get?_cons_succ]
      exact ih c' i (by omega)

theorem sliceAux_length (s : Nat) (hs : 1 ≤ s) :
    ∀ (l : List α) (c : Nat), c < s →
      (sliceAux s c l).length = (l.length + (s - 1) - c) / s := by
  intro l
  induction l with
  | nil =>
    intro c hc
    simp only [sliceAux, List.length_nil]
    rw [Nat.div_eq_of_lt (by omega)]
  | cons x xs ih =>
    intro c hc
    cases c with
    | zero =>
      simp only [sliceAux, List.length_cons]
      rw [ih (s - 1) (by omega)]
      have h2 : xs.length + (s - 1) - (s - 1) = xs.length := by omega
      have h3 : xs.length + 1 + (s - 1) - 0 = xs.length + s := by omega
      rw [h2, h3, Nat.add_div_right _ (by omega)]
    | succ c' =>
      simp only [sliceAux, List.length_cons]
      rw [ih c' (by omega)]
      congr 1
      omega

theorem sliceEvery_get? (s : Nat) (hs : 1 ≤ s) (l : List α) (i : Nat) :
    (sliceEvery s l).get? i = l.get? (i * s) := by
  have := sliceAux_get? s hs l 0 i (by omega)
  simpa [sliceEvery] using this

theorem sliceEvery_length (s : Nat) (hs : 1 ≤ s) (l : List α) :
    (sliceEvery s l).length = (l.length + s - 1) / s := by
  have := sliceAux_length s hs l 0 (by omega)
  simp only [sliceEvery, Nat.sub_zero] at this ⊢
  rw [this]
  congr 1
  omega

/-- C9: on a valid n-frame `Features`, `copy(subsample=s)` with a
strictly positive `s` selects the frames `[0 : nframes : s]`
identically from `data` and `times` — `ceil(n/s)` frames, at indices
`0, s, 2s, ...` — and `copy` raises for any non-positive integer
`subsample`. -/
theorem copy_subsample (f : Features) (s : Int) (hval : f.is_valid = true) :
    (0 < s →
      ∃ g, f.copy (some s) = .ok g ∧
        g.data = sliceEvery s.toNat f.data ∧
        g.times = f.times.takeEvery s.toNat ∧
        g.properties = f.properties ∧
        g.data.length = (f.nframes + s.toNat - 1) / s.toNat ∧
        (∀ i, g.data.get? i = f.data.get? (i * s.toNat)) ∧
        g.times.nframes = (f.times.nframes + s.toNat - 1) / s.toNat) ∧
    (s ≤ 0 → f.copy (some s) =
      .error ("subsample must be a strictly positive integer, it is: " ++ toString s)) := by
  constructor
  · intro hpos
    have hsn : 1 ≤ s.toNat := by omega
    refine ⟨⟨sliceEvery s.toNat f.data, f.times.takeEvery s.toNat, f.properties⟩, ?_, rfl, rfl, rfl,
      ?_, ?_, ?_⟩
    · simp only [Features.copy]
      rw [if_neg (by omega)]
    · exact sliceEvery_length s.toNat hsn f.data
    · intro i
      exact sliceEvery_get? s.toNat hsn f.data i
    · cases h : f.times with
      | one ts =>
        simp only [TArr.takeEvery, TArr.nframes]
        exact sliceEvery_length s.toNat hsn ts
      | two ts =>
        simp only [TArr.takeEvery, TArr.nframes]
        exact sliceEvery_length s.toNat hsn ts
  · intro hneg
    simp only [Features.copy]
    rw [if_pos hneg]

/-- C9 witness: subsampling a valid 5-frame `Features` by 2 keeps the
3 frames at indices 0, 2, 4; `copy(subsample=0)` raises. -/
theorem copy_subsample_witness :
    Features.is_valid ⟨[[Val.fin 1], [Val.fin 2], [Val.fin 3], [Val.fin 4], [Val.fin 5]],
        .one [Val.fin 0, Val.fin 1, Val.fin 2, Val.fin 3, Val.fin 4], []⟩ = true ∧
    (0:Int) < 2 ∧
    (∃ g, Features.copy ⟨[[Val.fin 1], [Val.fin 2], [Val.fin 3], [Val.fin 4], [Val.fin 5]],
        .one [Val.fin 0, Val.fin 1, Val.fin 2, Val.fin 3, Val.fin 4], []⟩ (some 2) = .ok g ∧
      g.data = sliceEvery 2 [[Val.fin 1], [Val.fin 2], [Val.fin 3], [Val.fin 4], [Val.fin 5]] ∧
      g.times = TArr.takeEvery 2 (.one [Val.fin 0, Val.fin 1, Val.fin 2, Val.fin 3, Val.fin 4]) ∧
      g.properties = [] ∧
      g.data.length = 3 ∧
      (∀ i, g.data.get? i =
        [[Val.fin 1], [Val.fin 2], [Val.fin 3], [Val.fin 4], [Val.fin 5]].get? (i * 2)) ∧
      g.times.nframes = 3) ∧
    Features.copy ⟨[[Val.fin 1], [Val.fin 2], [Val.fin 3], [Val.fin 4], [Val.fin 5]],
        .one [Val.fin 0, Val.fin 1, Val.fin 2, Val.fin 3, Val.fin 4], []⟩ (some 0) =
      .error "subsample must be a strictly positive integer, it is: 0" :=
  ⟨by decide, by decide,
   (copy_subsample _ 2 (by decide)).1 (by decide),
   (copy_subsample ⟨[[Val.fin 1], [Val.fin 2], [Val.fin 3], [Val.fin 4], [Val.fin 5]],
       .one [Val.fin 0, Val.fin 1, Val.fin 2, Val.fin 3, Val.fin 4], []⟩ 0 (by decide)).2
     (by decide)⟩

theorem init_ok (data : Mat) (times : TArr) (p : Props) (v : Bool) (f : Features)
    (h : Features.init data times p v = .ok f) : f = ⟨data, times, p⟩ := by
  unfold Features.init at h
  cases v with
  | false => simpa using h.symm
  | true =>
    cases hv : Features.validate ⟨data, times, p⟩ with
    | ok u => rw [hv] at h; cases u; simpa using h.symm
    | error e => rw [hv] at h; simp at h

/-- C8: `_from_dict` raises a MissingData-kind error naming every absent
required key when `data` or `times` is missing from the mapping, and an
absent `properties` defaults to the empty dict on the constructed
`Features`. -/
theorem from_dict_missing_keys (d : FeatDict) (v : Bool) :
    ((d.data = none ∨ d.times = none) →
      ∃ msg, Features.fromDict d v = .error msg ∧
        (d.data = none → ∃ pre post, msg = pre ++ "data" ++ post) ∧
        (d.times = none → ∃ pre post, msg = pre ++ "times" ++ post)) ∧
    (d.properties = none → ∀ f, Features.fromDict d v = .ok f → f.properties = []) := by
  obtain ⟨dd, dt, dp⟩ := d
  constructor
  · intro hmiss
    cases dd with
    | some mdata =>
      cases dt with
      | some mtimes => simp at hmiss
      | none =>
        refine ⟨"cannot read features from dict, missing keys: times", rfl, ?_, ?_⟩
        · intro h; simp at h
        · intro _
          exact ⟨"cannot read features from dict, missing keys: ", "", rfl⟩
    | none =>
      cases dt with
      | some mtimes =>
        refine ⟨"cannot read features from dict, missing keys: data", rfl, ?_, ?_⟩
        · intro _
          exact ⟨"cannot read features from dict, missing keys: ", "", rfl⟩
        · intro h; simp at h
      | none =>
        refine ⟨"cannot read features from dict, missing keys: data, times", rfl, ?_, ?_⟩
        · intro _
          exact ⟨"cannot read features from dict, missing keys: ", ", times", rfl⟩
        · intro _
          exact ⟨"cannot read features from dict, missing keys: data, ", "", rfl⟩
  · intro hprops f hok
    cases dd with
    | none => cases dt <;> simp [Features.fromDict] at hok
    | some mdata =>
      cases dt with
      | none => simp [Features.fromDict] at hok
      | some mtimes =>
        simp only at hprops
        have := init_ok mdata mtimes ((Option.getD dp [])) v f (by simpa [Features.fromDict] using hok)
        rw [this, hprops]
        rfl

/-- C8 witness: a mapping missing both required keys is rejected with a
message naming both `data` and `times`. -/
theorem from_dict_missing_keys_witness :
    ∃ msg, Features.fromDict ⟨none, none, none⟩ true = .error msg ∧
      (FeatDict.data ⟨none, none, none⟩ = none → ∃ pre post, msg = pre ++ "data" ++ post) ∧
      (FeatDict.times ⟨none, none, none⟩ = none → ∃ pre post, msg = pre ++ "times" ++ post) :=
  (from_dict_missing_keys ⟨none, none, none⟩ true).1 (Or.inl rfl)

theorem all_zip_self (l : List α) (p : α × α → Bool)
    (h : ∀ x ∈ l, p (x, x) = true) : (l.zip l).all p = true := by
  induction l with
  | nil => rfl
  | cons x xs ih =>
    simp only [List.zip_cons_cons, List.all_cons, Bool.and_eq_true]
    exact ⟨h x (by simp), ih fun y hy => h y (by simp [hy])⟩

theorem all2_refl (cmp : Val → Val → Bool) (m : Mat)
    (h : ∀ r ∈ m, ∀ v ∈ r, cmp v v = true) : Mat.all2 cmp m m = true := by
  unfold Mat.all2
  rw [Bool.and_eq_true]
  refine ⟨by simp, ?_⟩
  apply all_zip_self
  intro r hr
  rw [Bool.and_eq_true]
  exact ⟨by simp, all_zip_self r _ fun v hv => h r hr v hv⟩

theorem arrayEqual_refl (t : TArr) (hnn : t.noNan) : t.arrayEqual t = true := by
  cases t with
  | one ts =>
    unfold TArr.arrayEqual
    rw [Bool.and_eq_true]
    exact ⟨by simp, all_zip_self ts _ fun v hv => Val.eqv_refl_of_ne_nan v (hnn v hv)⟩
  | two ts =>
    exact all2_refl Val.eqv ts fun r hr v hv => Val.eqv_refl_of_ne_nan v (hnn r hr v hv)

theorem allFinite_mem (m : Mat) (h : m.allFinite = true) :
    ∀ r ∈ m, ∀ v ∈ r, ∃ q, v = Val.fin q := by
  intro r hr v hv
  unfold Mat.allFinite at h
  rw [List.all_eq_true] at h
  have := h r hr
  rw [List.all_eq_true] at this
  have := this v hv
  cases v <;> simp [Val.isFinite] at this ⊢

/-- C7 (amended): for every validly constructed `Features` whose
`times` contains no `nan`, `_from_dict(_to_dict())` reconstructs a
`Features` equal (`__eq__`) to the original.  (With a `nan` timestamp
the roundtrip succeeds but `np.array_equal(times, times)` is false, so
`__eq__` fails — see the counterexample.) -/
theorem to_from_dict_roundtrip (f : Features) (hval : f.is_valid = true)
    (hnn : f.times.noNan) :
    ∃ g, Features.fromDict (f.toDict true) true = .ok g ∧ Features.eq g f = true := by
  refine ⟨f, ?_, ?_⟩
  · show Features.init f.data f.times ((some f.properties).getD []) true = .ok f
    unfold Features.init
    rw [if_pos rfl]
    simp only [Option.getD_some]
    have : Features.validate ⟨f.data, f.times, f.properties⟩ = .ok () :=
      (is_valid_iff f).mp hval
    rw [this]
  · unfold Features.eq
    rw [if_neg (by simp), if_neg ?_, if_neg ?_, if_neg ?_]
    · rw [Bool.not_eq_true, Bool.not_eq_false]
      apply all2_refl
      intro r hr v hv
      obtain ⟨q, rfl⟩ := allFinite_mem f.data (is_valid_parts f hval).2.2 r hr v hv
      simp [Val.eqv]
    · rw [Bool.not_eq_true, Bool.not_eq_false]
      exact arrayEqual_refl f.times hnn
    · rw [Bool.not_eq_true, Bool.not_eq_false]
      exact dictEqual_refl f.properties

/-- C7 counterexample: `times = [nan]` passes validation (the argsort
identity check accepts it), the roundtrip succeeds, yet the
reconstructed object is NOT `__eq__`-equal to the original, because
`np.array_equal` is false on `nan` and the identity shortcut does not
apply to a freshly constructed object. -/
theorem roundtrip_nan_counterexample :
    Features.is_valid ⟨[[Val.fin 0]], .one [Val.nan], []⟩ = true ∧
    (Features.fromDict
        (Features.toDict ⟨[[Val.fin 0]], .one [Val.nan], []⟩ true) true).map
      (fun g => Features.eq g ⟨[[Val.fin 0]], .one [Val.nan], []⟩) = .ok false := by
  exact ⟨rfl, rfl⟩

/-- C7 witness for the amended roundtrip theorem. -/
theorem to_from_dict_roundtrip_witness :
    ∃ g, Features.fromDict
        (Features.toDict ⟨[[Val.fin 3]], .one [Val.fin 0], [("k", .str "v")]⟩ true) true =
      .ok g ∧ Features.eq g ⟨[[Val.fin 3]], .one [Val.fin 0], [("k", .str "v")]⟩ = true :=
  to_from_dict_roundtrip ⟨[[Val.fin 3]], .one [Val.fin 0], [("k", .str "v")]⟩ (by decide)
    (by intro v hv; simp at hv; simp [hv])

theorem allPair_iff_forall2 (cmp : α → β → Bool) :
    ∀ (l1 : List α) (l2 : List β),
      (l1.length == l2.length && (l1.zip l2).all fun vv => cmp vv.1 vv.2) = true ↔
        List.Forall₂ (fun v1 v2 => cmp v1 v2 = true) l1 l2 := by
  intro l1
  induction l1 with
  | nil =>
    intro l2
    cases l2 with
    | nil => simp
    | cons y ys => simp
  | cons x xs ih =>
    intro l2
    cases l2 with
    | nil => simp
    | cons y ys =>
      rw [List.forall₂_cons, ← ih ys]
      simp only [List.length_cons, List.zip_cons_cons, List.all_cons, Bool.and_eq_true,
        beq_iff_eq, Nat.succ.injEq]
      tauto

theorem all2_iff_forall2 (cmp : Val → Val → Bool) (m1 m2 : Mat) :
    Mat.all2 cmp m1 m2 = true ↔
      List.Forall₂ (fun r1 r2 => List.Forall₂ (fun v1 v2 => cmp v1 v2 = true) r1 r2) m1 m2 := by
  constructor
  · intro h
    unfold Mat.all2 at h
    have h' := (allPair_iff_forall2
      (fun r1 r2 => r1.length == r2.length && ((r1.zip r2).all fun vv => cmp vv.1 vv.2))
      m1 m2).mp h
    exact h'.imp fun _ _ hx => (allPair_iff_forall2 cmp _ _).mp hx
  · intro h
    unfold Mat.all2
    exact (allPair_iff_forall2
      (fun r1 r2 => r1.length == r2.length && ((r1.zip r2).all fun vv => cmp vv.1 vv.2))
      m1 m2).mpr (h.imp fun _ _ hx => (allPair_iff_forall2 cmp _ _).mpr hx)

theorem forall2_congr_mem {R S : α → β → Prop} :
    ∀ {l1 : List α} {l2 : List β},
      (∀ a ∈ l1, ∀ b ∈ l2, (R a b ↔ S a b)) →
      (List.Forall₂ R l1 l2 ↔ List.Forall₂ S l1 l2) := by
  intro l1
  induction l1 with
  | nil =>
    intro l2 _
    cases l2 <;> simp
  | cons x xs ih =>
    intro l2 hcong
    cases l2 with
    | nil => simp
    | cons y ys =>
      rw [List.forall₂_cons, List.forall₂_cons,
        hcong x (by simp) y (by simp),
        ih fun a ha b hb => hcong a (by simp [ha]) b (by simp [hb])]

theorem eq_parts (a b : Features) (h : a.eq b = true) :
    a.shape = b.shape ∧ dictEqual a.properties b.properties = true ∧
    a.times.arrayEqual b.times = true ∧ Mat.all2 Val.eqv a.data b.data = true := by
  unfold Features.eq at h
  split_ifs at h with h1 h2 h3 h4
  · exact ⟨not_ne_iff.mp h1, h2, h3, h4⟩

theorem eqv_close (rtol atol : ℚ) (hr : 0 ≤ rtol) (ha : 0 ≤ atol) (v1 v2 : Val)
    (h : Val.eqv v1 v2 = true) : Val.close rtol atol v1 v2 = true := by
  cases v1 with
  | fin q1 =>
    cases v2 with
    | fin q2 =>
      have hq : q1 = q2 := by simpa [Val.eqv] using h
      subst hq
      exact Val.close_refl rtol atol hr ha (Val.fin q1) (by simp)
    | pinf => simp [Val.eqv] at h
    | ninf => simp [Val.eqv] at h
    | nan => simp [Val.eqv] at h
  | pinf =>
    cases v2 with
    | fin q2 => simp [Val.eqv] at h
    | pinf => rfl
    | ninf => simp [Val.eqv] at h
    | nan => simp [Val.eqv] at h
  | ninf =>
    cases v2 with
    | fin q2 => simp [Val.eqv] at h
    | pinf => simp [Val.eqv] at h
    | ninf => rfl
    | nan => simp [Val.eqv] at h
  | nan => simp [Val.eqv] at h

/-- C6: `is_close(other, rtol, atol)` behaves as `__eq__` except that
`data` is compared elementwise with `|data1 - data2| <= atol + rtol *
|data2|` instead of exactly: with `times` and `properties` exactly
equal and the shapes matching, `is_close` is true exactly when every
single pair of data values is within the tolerance, and `__eq__`-equal
features are always `is_close` (for nonnegative tolerances). -/
theorem is_close_tolerance (a b : Features) (rtol atol : ℚ)
    (hsh : a.shape = b.shape)
    (hprops : dictEqual a.properties b.properties = true)
    (htimes : a.times.arrayEqual b.times = true)
    (hfa : a.data.allFinite = true) (hfb : b.data.allFinite = true) :
    (a.is_close b rtol atol = true ↔
      List.Forall₂ (fun r1 r2 => List.Forall₂ (fun v1 v2 =>
        ∃ q1 q2, v1 = Val.fin q1 ∧ v2 = Val.fin q2 ∧ |q1 - q2| ≤ atol + rtol * |q2|) r1 r2)
        a.data b.data) ∧
    (a.eq b = true → 0 ≤ rtol → 0 ≤ atol → a.is_close b rtol atol = true) := by
  have hred : a.is_close b rtol atol = true ↔
      Mat.all2 (Val.close rtol atol) a.data b.data = true := by
    unfold Features.is_close
    rw [if_neg (by simp [hsh]), if_neg (by simp [hprops]), if_neg (by simp [htimes])]
    by_cases hc : Mat.all2 (Val.close rtol atol) a.data b.data = true
    · simp [hc]
    · simp [hc]
  constructor
  · rw [hred, all2_iff_forall2]
    apply forall2_congr_mem
    intro r1 hr1 r2 hr2
    apply forall2_congr_mem
    intro v1 hv1 v2 hv2
    obtain ⟨q1, rfl⟩ := allFinite_mem a.data hfa r1 hr1 v1 hv1
    obtain ⟨q2, rfl⟩ := allFinite_mem b.data hfb r2 hr2 v2 hv2
    rw [Val.close_fin_iff]
    constructor
    · intro hq
      exact ⟨q1, q2, rfl, rfl, hq⟩
    · rintro ⟨q1', q2', h1, h2, hq⟩
      cases h1
      cases h2
      exact hq
  · intro heq hr ha
    rw [hred]
    have h4 := (eq_parts a b heq).2.2.2
    rw [all2_iff_forall2] at h4 ⊢
    exact h4.imp fun _ _ hx => hx.imp fun _ _ hv => eqv_close rtol atol hr ha _ _ hv

/-- C6 witness: two single-value features with exactly equal `times`
and `properties`, whose data differ within the tolerance, are
`is_close` by the elementwise criterion. -/
theorem is_close_tolerance_witness :
    Features.is_close ⟨[[Val.fin 1]], .one [Val.fin 0], []⟩
      ⟨[[Val.fin 1]], .one [Val.fin 0], []⟩ 0 0 = true :=
  (is_close_tolerance ⟨[[Val.fin 1]], .one [Val.fin 0], []⟩
      ⟨[[Val.fin 1]], .one [Val.fin 0], []⟩ 0 0 rfl (by decide) (by decide)
      (by decide) (by decide)).1.mpr
    (List.Forall₂.cons
      (List.Forall₂.cons ⟨1, 1, rfl, rfl, by norm_num⟩ List.Forall₂.nil)
      List.Forall₂.nil)

theorem find?_map_set (k : String) (v : PropVal) :
    ∀ (p : Props), (∃ kv ∈ p, kv.1 = k) →
      (p.map fun kv => if kv.1 == k then (k, v) else kv).find? (fun kv => kv.1 == k) =
        some (k, v) := by
  intro p
  induction p with
  | nil => rintro ⟨kv, hkv, _⟩; simp at hkv
  | cons x xs ih =>
    intro hex
    by_cases hx : x.1 = k
    · rw [List.map_cons, if_pos (by simpa using hx), List.find?_cons_of_pos _ (by simp)]
    · rw [List.map_cons, if_neg (by simpa using hx),
        List.find?_cons_of_neg _ (by simpa using hx)]
      apply ih
      obtain ⟨kv, hkv, hkk⟩ := hex
      rcases List.mem_cons.mp hkv with h1 | h1
      · subst h1; exact absurd hkk hx
      · exact ⟨kv, h1, hkk⟩

theorem find?_map_set_other (k k' : String) (v : PropVal) (h : k' ≠ k) :
    ∀ (p : Props),
      (p.map fun kv => if kv.1 == k then (k, v) else kv).find? (fun kv => kv.1 == k') =
        p.find? (fun kv => kv.1 == k') := by
  intro p
  induction p with
  | nil => rfl
  | cons x xs ih =>
    by_cases hx : x.1 = k
    · rw [List.map_cons, if_pos (by simpa using hx),
        List.find?_cons_of_neg _ (by simpa using fun hh => h hh.symm),
        List.find?_cons_of_neg _ (by rw [hx]; simpa using fun hh => h hh.symm)]
      exact ih
    · rw [List.map_cons, if_neg (by simpa using hx)]
      by_cases hk' : x.1 = k'
      · rw [List.find?_cons_of_pos _ (by simpa using hk'),
          List.find?_cons_of_pos _ (by simpa using hk')]
      · rw [List.find?_cons_of_neg _ (by simpa using hk'),
          List.find?_cons_of_neg _ (by simpa using hk')]
        exact ih

theorem propsHas_iff_exists (p : Props) (k : String) :
    propsHas p k = true ↔ ∃ kv ∈ p, kv.1 = k := by
  unfold propsHas
  rw [List.any_eq_true]
  simp

theorem propsGet_set_self (p : Props) (k : String) (v : PropVal) :
    propsGet (propsSet p k v) k = some v := by
  unfold propsSet
  by_cases h : propsHas p k = true
  · rw [if_pos h]
    unfold propsGet
    rw [find?_map_set k v p ((propsHas_iff_exists p k).mp h)]
    rfl
  · rw [if_neg h]
    unfold propsGet
    rw [List.find?_append]
    have hnone : p.find? (fun kv => kv.1 == k) = none := by
      rw [List.find?_eq_none]
      intro kv hkv
      simp only [beq_iff_eq]
      intro hk
      exact h ((propsHas_iff_exists p k).mpr ⟨kv, hkv, hk⟩)
    rw [hnone]
    simp [List.find?]

theorem propsGet_set_other (p : Props) (k k' : String) (v : PropVal) (h : k' ≠ k) :
    propsGet (propsSet p k v) k' = propsGet p k' := by
  unfold propsSet
  by_cases hh : propsHas p k = true
  · rw [if_pos hh]
    unfold propsGet
    rw [find?_map_set_other k k' v h p]
  · rw [if_neg hh]
    unfold propsGet
    rw [List.find?_append]
    cases hp : p.find? fun kv => kv.1 == k' with
    | some kv => simp
    | none =>
      simp only [Option.none_or]
      rw [List.find?_cons_of_neg _ (by simpa using fun hx => h hx.symm)]
      simp [List.find?]

theorem propsHas_get_iff (p : Props) (k : String) :
    propsHas p k = true ↔ ∃ v, propsGet p k = some v := by
  rw [propsHas_iff_exists]
  unfold propsGet
  constructor
  · rintro ⟨kv, hkv, hk⟩
    have : (p.find? fun kv => kv.1 == k).isSome = true := by
      rw [List.find?_isSome]
      exact ⟨kv, hkv, by simpa using hk⟩
    obtain ⟨w, hw⟩ := Option.isSome_iff_exists.mp this
    exact ⟨w.2, by rw [hw]; rfl⟩
  · rintro ⟨v, hv⟩
    cases hf : p.find? fun kv => kv.1 == k with
    | none => rw [hf] at hv; simp at hv
    | some kv =>
      have hmem := List.mem_of_find?_eq_some hf
      have hpred := List.find?_some hf
      exact ⟨kv, hmem, by simpa using hpred⟩

theorem propsGet_update_not_mem (q : Props) :
    ∀ (p : Props) (k : String), (∀ kv ∈ q, kv.1 ≠ k) →
      propsGet (propsUpdate p q) k = propsGet p k := by
  induction q with
  | nil => intro p k _; rfl
  | cons x xs ih =>
    intro p k h
    show propsGet (propsUpdate (propsSet p x.1 x.2) xs) k = _
    rw [ih _ k fun kv hkv => h kv (List.mem_cons_of_mem _ hkv)]
    exact propsGet_set_other p x.1 k x.2 (Ne.symm (h x (by simp)))

theorem propsGet_update_mem (q : Props) :
    ∀ (p : Props) (k : String) (v : PropVal),
      (q.map Prod.fst).Nodup → (k, v) ∈ q →
      propsGet (propsUpdate p q) k = some v := by
  induction q with
  | nil => intro p k v _ hmem; simp at hmem
  | cons x xs ih =>
    intro p k v hnd hmem
    rcases List.mem_cons.mp hmem with h1 | h1
    · subst h1
      show propsGet (propsUpdate (propsSet p k v) xs) k = some v
      rw [propsGet_update_not_mem xs _ k ?_, propsGet_set_self]
      intro kv hkv hk
      have hmm : kv.1 ∈ xs.map Prod.fst := List.mem_map_of_mem Prod.fst hkv
      rw [hk] at hmm
      exact (List.nodup_cons.mp hnd).1 hmm
    · exact ih _ k v (List.nodup_cons.mp hnd).2 h1

theorem entryWF_shift (k : PropVal) (nd : Int) (h : entryWF k = true) :
    ∃ k', shiftColumns k nd = some k' := by
  cases k with
  | dict d =>
    simp only [entryWF] at h
    simp only [shiftColumns]
    cases hg : propsGet d "columns" with
    | none => rw [hg] at h; simp at h
    | some v =>
      rw [hg] at h
      cases v with
      | list l =>
        cases l with
        | nil => simp at h
        | cons c0 l' =>
          cases c0 with
          | num n0 =>
            cases l' with
            | nil => simp at h
            | cons c1 l'' =>
              cases c1 with
              | num n1 => exact ⟨_, rfl⟩
              | str s => simp at h
              | arr a => simp at h
              | list m => simp at h
              | dict dd => simp at h
          | str s => simp at h
          | arr a => simp at h
          | list m => simp at h
          | dict dd => simp at h
      | str s => simp at h
      | num n => simp at h
      | arr a => simp at h
      | dict dd => simp at h
  | str s => simp [entryWF] at h
  | num n => simp [entryWF] at h
  | arr a => simp [entryWF] at h
  | list l => simp [entryWF] at h

theorem appendPipeline_props (nd : Int) :
    ∀ (ks : List PropVal) (props : Props) (l : List PropVal),
      propsGet props "pipeline" = some (.list l) →
      (∀ k ∈ ks, entryWF k = true) →
      ∃ q, appendPipeline props ks nd = .ok q ∧
        propsGet q "pipeline" =
          some (.list (l ++ ks.map fun k => (shiftColumns k nd).getD k)) ∧
        (∀ k', k' ≠ "pipeline" → propsGet q k' = propsGet props k') := by
  intro ks
  induction ks with
  | nil =>
    intro props l hget _
    exact ⟨props, rfl, by simpa using hget, fun _ _ => rfl⟩
  | cons k rest ih =>
    intro props l hget hwf
    obtain ⟨k', hk'⟩ := entryWF_shift k nd (hwf k (by simp))
    have hstep : appendPipeline props (k :: rest) nd =
        appendPipeline (propsSet props "pipeline" (.list (l ++ [k']))) rest nd := by
      conv_lhs => rw [appendPipeline]
      rw [hget, hk']
    obtain ⟨q, hq, hqp, hqo⟩ := ih (propsSet props "pipeline" (.list (l ++ [k'])))
      (l ++ [k']) (propsGet_set_self props "pipeline" (.list (l ++ [k'])))
      (fun x hx => hwf x (by simp [hx]))
    refine ⟨q, by rw [hstep]; exact hq, ?_, ?_⟩
    · rw [hqp, List.map_cons, hk']
      simp
    · intro k'' hk''
      rw [hqo k'' hk'', propsGet_set_other _ _ _ _ hk'']

theorem mergeUpdated_get_pipeline (s o : Props) :
    propsGet (mergeUpdated s o) "pipeline" = propsGet s "pipeline" := by
  unfold mergeUpdated
  apply propsGet_update_not_mem
  intro kv hkv
  have := (List.mem_filter.mp hkv).2
  simpa using this

theorem mergeUpdated_get (s o : Props) (k : String) (hk : k ≠ "pipeline")
    (hnd : (o.map Prod.fst).Nodup) :
    propsGet (mergeUpdated s o) k =
      if propsHas o k = true then propsGet o k else propsGet s k := by
  unfold mergeUpdated
  by_cases h : propsHas o k = true
  · rw [if_pos h]
    obtain ⟨v, hv⟩ := (propsHas_get_iff o k).mp h
    rw [hv]
    apply propsGet_update_mem
    · have hsub : List.Sublist (o.filter fun kv => kv.1 != "pipeline") o :=
        List.filter_sublist o
      exact List.Nodup.sublist (List.Sublist.map Prod.fst hsub) hnd
    · unfold propsGet at hv
      cases hf : o.find? fun kv => kv.1 == k with
      | none => rw [hf] at hv; simp at hv
      | some kv =>
        rw [hf] at hv
        have hmem := List.mem_of_find?_eq_some hf
        have hpred : kv.1 = k := by simpa using List.find?_some hf
        have hv2 : kv.2 = v := by simpa using hv
        have : kv = (k, v) := by
          obtain ⟨a, b⟩ := kv
          simp only at hpred hv2
          rw [hpred, hv2]
        rw [this] at hmem
        exact List.mem_filter.mpr ⟨hmem, by simpa using hk⟩
  · rw [if_neg h]
    apply propsGet_update_not_mem
    intro kv hkv hkk
    exact h ((propsHas_iff_exists o k).mpr ⟨kv, (List.mem_filter.mp hkv).1, hkk⟩)

theorem mergeBase_get_pipeline (s o : Props) (hwa : pipelineWF s = true) :
    propsGet (mergeBase s o) "pipeline" = some (.list (pipeList s)) := by
  unfold mergeBase
  by_cases h : propsHas (mergeUpdated s o) "pipeline" = true
  · rw [if_pos h, mergeUpdated_get_pipeline]
    obtain ⟨v, hv⟩ := (propsHas_get_iff _ _).mp h
    rw [mergeUpdated_get_pipeline] at hv
    unfold pipelineWF at hwa
    rw [hv] at hwa ⊢
    cases v with
    | list l => simp [pipeList, hv]
    | str ss => simp at hwa
    | num n => simp at hwa
    | arr a => simp at hwa
    | dict d => simp at hwa
  · rw [if_neg h, propsGet_set_self]
    have hnone : propsGet s "pipeline" = none := by
      cases hg : propsGet s "pipeline" with
      | none => rfl
      | some v =>
        exact absurd ((propsHas_get_iff _ _).mpr ⟨v, (mergeUpdated_get_pipeline s o).symm ▸ hg⟩) h
    simp [pipeList, hnone]

theorem mergeBase_get (s o : Props) (k : String) (hk : k ≠ "pipeline") :
    propsGet (mergeBase s o) k = propsGet (mergeUpdated s o) k := by
  unfold mergeBase
  by_cases h : propsHas (mergeUpdated s o) "pipeline" = true
  · rw [if_pos h]
  · rw [if_neg h, propsGet_set_other _ _ _ _ hk]

/-- Characterization of the property merge: it succeeds on
convention-conforming pipelines, the result always carries a `pipeline`
list made of `self`'s pipeline followed by `other`'s entries with
columns shifted by `nd`, and every other key is `other`'s value when
present there, else `self`'s. -/
theorem mergeProperties_spec (selfP otherP : Props) (nd : Int)
    (hwa : pipelineWF selfP = true) (hwb : pipelineWF otherP = true) :
    ∃ q, mergeProperties selfP otherP nd = .ok q ∧
      propsHas q "pipeline" = true ∧
      propsGet q "pipeline" = some (.list (pipeList selfP ++
        (pipeList otherP).map fun k => (shiftColumns k nd).getD k)) ∧
      (∀ k, k ≠ "pipeline" → (otherP.map Prod.fst).Nodup →
        propsGet q k = if propsHas otherP k = true then propsGet otherP k else propsGet selfP k) := by
  unfold mergeProperties
  by_cases hb : propsHas otherP "pipeline" = true
  · rw [if_pos hb]
    obtain ⟨v, hv⟩ := (propsHas_get_iff _ _).mp hb
    unfold pipelineWF at hwb
    rw [hv] at hwb ⊢
    cases v with
    | list ks =>
      have hkswf : ∀ k ∈ ks, entryWF k = true := by
        rw [List.all_eq_true] at hwb
        exact fun k hk => hwb k hk
      obtain ⟨q, hq, hqp, hqo⟩ := appendPipeline_props nd ks (mergeBase selfP otherP)
        (pipeList selfP) (mergeBase_get_pipeline selfP otherP hwa) hkswf
      refine ⟨q, hq, ?_, ?_, ?_⟩
      · exact (propsHas_get_iff _ _).mpr ⟨_, hqp⟩
      · rw [hqp]
        simp [pipeList, hv]
      · intro k hk hnd
        rw [hqo k hk, mergeBase_get _ _ _ hk, mergeUpdated_get _ _ _ hk hnd]
    | str ss => simp at hwb
    | num n => simp at hwb
    | arr a => simp at hwb
    | dict d => simp at hwb
  · rw [if_neg hb]
    have hnone : propsGet otherP "pipeline" = none := by
      cases hg : propsGet otherP "pipeline" with
      | none => rfl
      | some v => exact absurd ((propsHas_get_iff _ _).mpr ⟨v, hg⟩) hb
    refine ⟨mergeBase selfP otherP, rfl, ?_, ?_, ?_⟩
    · exact (propsHas_get_iff _ _).mpr ⟨_, mergeBase_get_pipeline selfP otherP hwa⟩
    · rw [mergeBase_get_pipeline selfP otherP hwa]
      simp [pipeList, hnone]
    · intro k hk hnd
      rw [mergeBase_get _ _ _ hk, mergeUpdated_get _ _ _ hk hnd]

theorem dimErrors_parts (f : Features) (h : f.dimErrors = []) :
    (∀ ts, f.times = .two ts → ∀ r ∈ ts, r.length = 2) ∧
      f.data.length = f.times.nframes := by
  unfold Features.dimErrors at h
  rw [List.append_eq_nil] at h
  obtain ⟨hA, hB⟩ := h
  constructor
  · intro ts hts r hr
    rw [hts] at hA
    by_cases hall : ts.all (fun r => r.length == 2) = true
    · rw [List.all_eq_true] at hall
      simpa using hall r hr
    · simp [hall] at hA
  · by_cases hfr : (f.data.length == f.times.nframes) = true
    · simpa using hfr
    · simp [hfr] at hB

theorem dimErrors_nil_of (f : Features)
    (h2 : ∀ ts, f.times = .two ts → ∀ r ∈ ts, r.length = 2)
    (h3 : f.data.length = f.times.nframes) : f.dimErrors = [] := by
  unfold Features.dimErrors
  rw [List.append_eq_nil]
  constructor
  · cases hts : f.times with
    | one ts => rfl
    | two ts =>
      show (if (ts.all fun r => r.length == 2) = true then []
            else ["times shape[1] must be 2, it is " ++ toString (Mat.ncols ts)]) = []
      rw [if_pos]
      rw [List.all_eq_true]
      intro r hr
      simpa using h2 ts hts r hr
  · rw [if_pos (by simpa using h3)]

theorem timesSorted_take (t : TArr) (m : Nat) (h : timesSorted t = true) :
    timesSorted (t.take m) = true := by
  rw [timesSorted_iff] at h ⊢
  cases t with
  | one ts => exact List.Chain'.take h m
  | two ts => exact List.Chain'.take h m

theorem TArr.take_self (t : TArr) : t.take t.nframes = t := by
  cases t <;> simp [TArr.take, TArr.nframes]

theorem TArr.take_nframes (t : TArr) (m : Nat) :
    (t.take m).nframes = min m t.nframes := by
  cases t <;> simp [TArr.take, TArr.nframes]

theorem mem_zipWith_append :
    ∀ (m1 m2 : Mat) (r : List Val), r ∈ List.zipWith (· ++ ·) m1 m2 →
      ∃ r1 ∈ m1, ∃ r2 ∈ m2, r = r1 ++ r2 := by
  intro m1
  induction m1 with
  | nil => intro m2 r hr; simp at hr
  | cons x xs ih =>
    intro m2 r hr
    cases m2 with
    | nil => simp at hr
    | cons y ys =>
      rw [List.zipWith_cons_cons] at hr
      rcases List.mem_cons.mp hr with h1 | h1
      · exact ⟨x, by simp, y, by simp, h1⟩
      · obtain ⟨r1, hr1, r2, hr2, hr⟩ := ih ys r h1
        exact ⟨r1, by simp [hr1], r2, by simp [hr2], hr⟩

theorem allFinite_take (m : Mat) (k : Nat) (h : m.allFinite = true) :
    Mat.allFinite (m.take k) = true := by
  unfold Mat.allFinite at h ⊢
  rw [List.all_eq_true] at h ⊢
  exact fun r hr => h r (List.take_subset k m hr)

theorem allFinite_zipWith (m1 m2 : Mat) (h1 : m1.allFinite = true)
    (h2 : m2.allFinite = true) :
    Mat.allFinite (List.zipWith (· ++ ·) m1 m2) = true := by
  unfold Mat.allFinite at h1 h2 ⊢
  rw [List.all_eq_true] at h1 h2 ⊢
  intro r hr
  obtain ⟨r1, hr1, r2, hr2, rfl⟩ := mem_zipWith_append m1 m2 r hr
  rw [List.all_append, Bool.and_eq_true]
  exact ⟨h1 r1 hr1, h2 r2 hr2⟩

theorem concatenate_ok_of (a b : Features) (tol : Nat)
    (hva : a.is_valid = true) (hvb : b.is_valid = true)
    (hwa : pipelineWF a.properties = true) (hwb : pipelineWF b.properties = true)
    (hd : ((a.nframes : Int) - (b.nframes : Int)).natAbs ≤ tol)
    (htc : TArr.allclose (a.times.take (min a.nframes b.nframes))
      (b.times.take (min a.nframes b.nframes)) = some true) :
    ∃ c, a.concatenate b tol = .ok c ∧
      c.data = List.zipWith (· ++ ·) (a.data.take (min a.nframes b.nframes))
        (b.data.take (min a.nframes b.nframes)) ∧
      c.times = a.times.take (min a.nframes b.nframes) ∧
      mergeProperties a.properties b.properties (a.ndims : Int) = .ok c.properties ∧
      c.nframes = min a.nframes b.nframes := by
  obtain ⟨hdima, hsorta, hfina⟩ := is_valid_parts a hva
  obtain ⟨hdimb, hsortb, hfinb⟩ := is_valid_parts b hvb
  have hta : a.data.length = a.times.nframes := (dimErrors_parts a hdima).2
  have htb : b.data.length = b.times.nframes := (dimErrors_parts b hdimb).2
  have hna : a.nframes = a.data.length := rfl
  have hnb : b.nframes = b.data.length := rfl
  obtain ⟨props, hm, _, _, _⟩ :=
    mergeProperties_spec a.properties b.properties (a.ndims : Int) hwa hwb
  have e_d1 : (if ((a.nframes : Int) - (b.nframes : Int)).natAbs ≠ 0 ∧ a.nframes > b.nframes
      then a.data.take (a.nframes - ((a.nframes : Int) - (b.nframes : Int)).natAbs)
      else a.data) = a.data.take (min a.nframes b.nframes) := by
    split_ifs with h
    · congr 1
      omega
    · have hmin : min a.nframes b.nframes = a.data.length := by omega
      rw [hmin, List.take_length]
  have e_t1 : (if ((a.nframes : Int) - (b.nframes : Int)).natAbs ≠ 0 ∧ a.nframes > b.nframes
      then a.times.take (a.nframes - ((a.nframes : Int) - (b.nframes : Int)).natAbs)
      else a.times) = a.times.take (min a.nframes b.nframes) := by
    split_ifs with h
    · congr 1
      omega
    · have hmin : min a.nframes b.nframes = a.times.nframes := by omega
      rw [hmin, TArr.take_self]
  have e_d2 : (if ((a.nframes : Int) - (b.nframes : Int)).natAbs ≠ 0 ∧ ¬ a.nframes > b.nframes
      then b.data.take (b.nframes - ((a.nframes : Int) - (b.nframes : Int)).natAbs)
      else b.data) = b.data.take (min a.nframes b.nframes) := by
    split_ifs with h
    · congr 1
      omega
    · have hmin : min a.nframes b.nframes = b.data.length := by omega
      rw [hmin, List.take_length]
  have e_t2 : (if ((a.nframes : Int) - (b.nframes : Int)).natAbs ≠ 0 ∧ ¬ a.nframes > b.nframes
      then b.times.take (b.nframes - ((a.nframes : Int) - (b.nframes : Int)).natAbs)
      else b.times) = b.times.take (min a.nframes b.nframes) := by
    split_ifs with h
    · congr 1
      omega
    · have hmin : min a.nframes b.nframes = b.times.nframes := by omega
      rw [hmin, TArr.take_self]
  have hlen1 : (a.data.take (min a.nframes b.nframes)).length = min a.nframes b.nframes := by
    rw [List.length_take]
    omega
  have hlen2 : (b.data.take (min a.nframes b.nframes)).length = min a.nframes b.nframes := by
    rw [List.length_take]
    omega
  have hzlen : (List.zipWith (· ++ ·) (a.data.take (min a.nframes b.nframes))
      (b.data.take (min a.nframes b.nframes))).length = min a.nframes b.nframes := by
    rw [List.length_zipWith, hlen1, hlen2]
    omega
  have hv : Features.validate
      ⟨List.zipWith (· ++ ·) (a.data.take (min a.nframes b.nframes))
        (b.data.take (min a.nframes b.nframes)),
       a.times.take (min a.nframes b.nframes), props⟩ = .ok () := by
    apply (validate_ok_iff _).mpr
    refine ⟨?_, ?_, ?_⟩
    · apply dimErrors_nil_of
      · intro ts hts r hr
        cases hat : a.times with
        | one ts' => rw [hat] at hts; simp [TArr.take] at hts
        | two ts' =>
          rw [hat] at hts
          simp only [TArr.take, TArr.two.injEq] at hts
          have hr' : r ∈ ts' := List.take_subset _ _ (hts ▸ hr)
          exact (dimErrors_parts a hdima).1 ts' hat r hr'
      · show (List.zipWith (· ++ ·) _ _).length = (TArr.take (min a.nframes b.nframes) a.times).nframes
        rw [hzlen, TArr.take_nframes]
        omega
    · exact timesSorted_take a.times _ hsorta
    · exact allFinite_zipWith _ _ (allFinite_take a.data _ hfina) (allFinite_take b.data _ hfinb)
  refine ⟨⟨List.zipWith (· ++ ·) (a.data.take (min a.nframes b.nframes))
      (b.data.take (min a.nframes b.nframes)),
    a.times.take (min a.nframes b.nframes), props⟩, ?_, rfl, rfl, by rw [hm], ?_⟩
  · simp only [Features.concatenate]
    rw [if_neg (by omega), if_neg (by omega), e_d1, e_t1, e_d2, e_t2, htc, hm]
    show Features.init _ _ _ true = _
    unfold Features.init
    rw [if_pos rfl, hv]
  · exact hzlen

theorem allclose_refl (t : TArr) (hnn : t.noNan) : TArr.allclose t t = some true := by
  have h0r : (0:ℚ) ≤ npRtol := by decide
  have h0a : (0:ℚ) ≤ npAtol := by decide
  cases t with
  | one ts =>
    show (if ts.length = ts.length
        then some ((ts.zip ts).all fun vv => Val.close npRtol npAtol vv.1 vv.2)
        else none) = some true
    rw [if_pos rfl]
    congr 1
    exact all_zip_self ts _ fun v hv => Val.close_refl npRtol npAtol h0r h0a v (hnn v hv)
  | two ts =>
    show (if ts.length = ts.length ∧ ((ts.zip ts).all fun rr => rr.1.length == rr.2.length) = true
        then some (Mat.all2 (Val.close npRtol npAtol) ts ts)
        else none) = some true
    rw [if_pos ⟨rfl, all_zip_self ts _ fun r hr => by simp⟩]
    congr 1
    exact all2_refl _ ts fun r hr v hv => Val.close_refl npRtol npAtol h0r h0a v (hnn r hr v hv)

theorem ncols_zipWith_append (m1 m2 : Mat) (hlen : m1.length = m2.length) :
    Mat.ncols (List.zipWith (· ++ ·) m1 m2) = Mat.ncols m1 + Mat.ncols m2 := by
  cases m1 with
  | nil =>
    cases m2 with
    | nil => rfl
    | cons y ys => simp at hlen
  | cons x xs =>
    cases m2 with
    | nil => simp at hlen
    | cons y ys => simp [Mat.ncols]

theorem zipWith_append_take_drop (d : Nat) :
    ∀ (m1 m2 : Mat), (∀ r ∈ m1, r.length = d) → m1.length = m2.length →
      (List.zipWith (· ++ ·) m1 m2).map (List.take d) = m1 ∧
      (List.zipWith (· ++ ·) m1 m2).map (List.drop d) = m2 := by
  intro m1
  induction m1 with
  | nil =>
    intro m2 _ hlen
    cases m2 with
    | nil => exact ⟨rfl, rfl⟩
    | cons y ys => simp at hlen
  | cons x xs ih =>
    intro m2 hd hlen
    cases m2 with
    | nil => simp at hlen
    | cons y ys =>
      have hx : x.length = d := hd x (by simp)
      obtain ⟨ih1, ih2⟩ := ih ys (fun r hr => hd r (by simp [hr])) (by simpa using hlen)
      constructor
      · rw [List.zipWith_cons_cons, List.map_cons, ih1, List.take_left' hx]
      · rw [List.zipWith_cons_cons, List.map_cons, ih2, List.drop_left' hx]

/-- C1 counterexample: two valid `Features` with identical `times`
`[0, nan]` (a trailing `nan` passes the time-ordering check, and data
is finite, so both validate) on which `concatenate` raises instead of
succeeding: `np.allclose` is false on `nan`. -/
theorem concatenate_nan_counterexample :
    Features.is_valid ⟨[[Val.fin 1], [Val.fin 2]], .one [Val.fin 0, Val.nan], []⟩ = true ∧
    Features.is_valid ⟨[[Val.fin 3], [Val.fin 4]], .one [Val.fin 0, Val.nan], []⟩ = true ∧
    Features.times ⟨[[Val.fin 1], [Val.fin 2]], .one [Val.fin 0, Val.nan], []⟩ =
      Features.times ⟨[[Val.fin 3], [Val.fin 4]], .one [Val.fin 0, Val.nan], []⟩ ∧
    Features.concatenate ⟨[[Val.fin 1], [Val.fin 2]], .one [Val.fin 0, Val.nan], []⟩
      ⟨[[Val.fin 3], [Val.fin 4]], .one [Val.fin 0, Val.nan], []⟩ 0 =
      .error "times are not equal" :=
  ⟨by decide, by decide, rfl, rfl⟩

/-- C1 (amended): for two valid `Features` with identical `times`
arrays containing no `nan`, with rectangular data matrices and
properties whose `pipeline` follows the convention, `concatenate`
succeeds; the result's `ndims` is the sum of the operands' `ndims`, its
first `a.ndims` columns are `a.data`, the remaining columns are
`b.data`, and its `times` is `a`'s times. -/
theorem concatenate_same_times (a b : Features)
    (hva : a.is_valid = true) (hvb : b.is_valid = true)
    (ht : a.times = b.times) (hnn : a.times.noNan)
    (hwa : pipelineWF a.properties = true) (hwb : pipelineWF b.properties = true)
    (hra : Mat.rect a.data) (hrb : Mat.rect b.data) :
    ∃ c, a.concatenate b 0 = .ok c ∧
      c.ndims = a.ndims + b.ndims ∧
      c.data.map (List.take a.ndims) = a.data ∧
      c.data.map (List.drop a.ndims) = b.data ∧
      c.times = a.times := by
  have hta : a.data.length = a.times.nframes := (dimErrors_parts a (is_valid_parts a hva).1).2
  have htb : b.data.length = b.times.nframes := (dimErrors_parts b (is_valid_parts b hvb).1).2
  have hfr : a.nframes = b.nframes := by
    show a.data.length = b.data.length
    rw [hta, htb, ht]
  have hmin : min a.nframes b.nframes = a.nframes := by omega
  have htake_a : a.data.take (min a.nframes b.nframes) = a.data := by
    rw [hmin]
    exact List.take_length a.data
  have htake_b : b.data.take (min a.nframes b.nframes) = b.data := by
    rw [hmin, hfr]
    exact List.take_length b.data
  have htake_t : a.times.take (min a.nframes b.nframes) = a.times := by
    rw [hmin, show a.nframes = a.times.nframes from hta]
    exact TArr.take_self a.times
  have htake_t2 : b.times.take (min a.nframes b.nframes) = b.times := by
    rw [hmin, hfr, show b.nframes = b.times.nframes from htb]
    exact TArr.take_self b.times
  have htc : TArr.allclose (a.times.take (min a.nframes b.nframes))
      (b.times.take (min a.nframes b.nframes)) = some true := by
    rw [htake_t, htake_t2, ht]
    exact allclose_refl b.times (ht ▸ hnn)
  obtain ⟨c, hok, hcd, hct, _, _⟩ :=
    concatenate_ok_of a b 0 hva hvb hwa hwb (by omega) htc
  rw [htake_a, htake_b] at hcd
  have hrA : ∀ r ∈ a.data, r.length = a.ndims := hra
  obtain ⟨hmap1, hmap2⟩ := zipWith_append_take_drop a.ndims a.data b.data hrA hfr
  refine ⟨c, hok, ?_, ?_, ?_, ?_⟩
  · show Mat.ncols c.data = _
    rw [hcd, ncols_zipWith_append a.data b.data hfr]
    rfl
  · rw [hcd, hmap1]
  · rw [hcd, hmap2]
  · rw [hct, htake_t]

/-- C1 witness: concatenating two valid 1-frame features with times
`[0]` stacks the columns. -/
theorem concatenate_same_times_witness :
    ∃ c, Features.concatenate ⟨[[Val.fin 1, Val.fin 2]], .one [Val.fin 0], []⟩
        ⟨[[Val.fin 3]], .one [Val.fin 0], []⟩ 0 = .ok c ∧
      c.ndims = Features.ndims ⟨[[Val.fin 1, Val.fin 2]], .one [Val.fin 0], []⟩ +
        Features.ndims ⟨[[Val.fin 3]], .one [Val.fin 0], []⟩ ∧
      c.data.map (List.take (Features.ndims ⟨[[Val.fin 1, Val.fin 2]], .one [Val.fin 0], []⟩)) =
        [[Val.fin 1, Val.fin 2]] ∧
      c.data.map (List.drop (Features.ndims ⟨[[Val.fin 1, Val.fin 2]], .one [Val.fin 0], []⟩)) =
        [[Val.fin 3]] ∧
      c.times = .one [Val.fin 0] :=
  concatenate_same_times ⟨[[Val.fin 1, Val.fin 2]], .one [Val.fin 0], []⟩
    ⟨[[Val.fin 3]], .one [Val.fin 0], []⟩ (by decide) (by decide) rfl
    (by intro v hv; simp at hv; simp [hv]) (by decide) (by decide)
    (by intro r hr; simp at hr; simp [hr]) (by intro r hr; simp at hr; simp [hr])

/-- C2 counterexample: the frame-count difference is 1, within the
tolerance of 1, and both operands are valid — yet the concatenation
does NOT succeed, because the post-trim times are not numerically
close.  The claim's "concatenation succeeds" needs the times-closeness
condition. -/
theorem concatenate_tolerance_counterexample :
    Features.is_valid ⟨[[Val.fin 1], [Val.fin 2]], .one [Val.fin 0, Val.fin 1], []⟩ = true ∧
    Features.is_valid ⟨[[Val.fin 3]], .one [Val.fin 100], []⟩ = true ∧
    ((Features.nframes ⟨[[Val.fin 1], [Val.fin 2]], .one [Val.fin 0, Val.fin 1], []⟩ : Int) -
      (Features.nframes ⟨[[Val.fin 3]], .one [Val.fin 100], []⟩ : Int)).natAbs = 1 ∧
    Features.concatenate ⟨[[Val.fin 1], [Val.fin 2]], .one [Val.fin 0, Val.fin 1], []⟩
      ⟨[[Val.fin 3]], .one [Val.fin 100], []⟩ 1 = .error "times are not equal" :=
  ⟨by decide, by decide, by decide, rfl⟩

/-- C2 (amended): `concatenate` raises when the frame counts differ and
`tolerance` is zero; raises when the difference exceeds the tolerance;
and when `0 < diff <= tolerance`, for valid operands with
convention-conforming pipelines whose post-trim times are numerically
close, it succeeds after trimming the longer operand from its tail so
that both share `min(nframes)` frames (the logged warning is a side
effect outside the value model). -/
theorem concatenate_tolerance (a b : Features) (tol : Nat) :
    (a.nframes ≠ b.nframes →
      a.concatenate b 0 = .error "features have a different number of frames") ∧
    (((a.nframes : Int) - (b.nframes : Int)).natAbs > tol →
      ∃ msg, a.concatenate b tol = .error msg) ∧
    (a.is_valid = true → b.is_valid = true →
      pipelineWF a.properties = true → pipelineWF b.properties = true →
      0 < ((a.nframes : Int) - (b.nframes : Int)).natAbs →
      ((a.nframes : Int) - (b.nframes : Int)).natAbs ≤ tol →
      TArr.allclose (a.times.take (min a.nframes b.nframes))
        (b.times.take (min a.nframes b.nframes)) = some true →
      ∃ c, a.concatenate b tol = .ok c ∧
        c.nframes = min a.nframes b.nframes ∧
        c.data = List.zipWith (· ++ ·) (a.data.take (min a.nframes b.nframes))
          (b.data.take (min a.nframes b.nframes)) ∧
        c.times = a.times.take (min a.nframes b.nframes)) := by
  refine ⟨?_, ?_, ?_⟩
  · intro hne
    simp only [Features.concatenate]
    rw [if_pos ⟨by omega, by trivial⟩]
  · intro hgt
    by_cases htol : tol = 0
    · subst htol
      simp only [Features.concatenate]
      rw [if_pos ⟨by omega, by trivial⟩]
      exact ⟨_, rfl⟩
    · simp only [Features.concatenate]
      rw [if_neg (by omega), if_pos ⟨by omega, hgt⟩]
      exact ⟨_, rfl⟩
  · intro hva hvb hwa hwb _ hle htc
    obtain ⟨c, hok, hcd, hct, _, hcn⟩ :=
      concatenate_ok_of a b tol hva hvb hwa hwb hle htc
    exact ⟨c, hok, hcn, hcd, hct⟩

/-- C2 witness: a 2-frame and a 1-frame features with close times
concatenate under tolerance 1 to a single trimmed frame; with tolerance
0 the same pair raises. -/
theorem concatenate_tolerance_witness :
    Features.concatenate ⟨[[Val.fin 1], [Val.fin 2]], .one [Val.fin 0, Val.fin 1], []⟩
      ⟨[[Val.fin 3]], .one [Val.fin 0], []⟩ 0 =
      .error "features have a different number of frames" ∧
    (∃ c, Features.concatenate ⟨[[Val.fin 1], [Val.fin 2]], .one [Val.fin 0, Val.fin 1], []⟩
        ⟨[[Val.fin 3]], .one [Val.fin 0], []⟩ 1 = .ok c ∧
      c.nframes = 1 ∧
      c.data = [[Val.fin 1, Val.fin 3]] ∧
      c.times = .one [Val.fin 0]) := by
  refine ⟨(concatenate_tolerance ⟨[[Val.fin 1], [Val.fin 2]], .one [Val.fin 0, Val.fin 1], []⟩
      ⟨[[Val.fin 3]], .one [Val.fin 0], []⟩ 0).1 (by decide), ?_⟩
  obtain ⟨c, hok, hcn, hcd, hct⟩ :=
    (concatenate_tolerance ⟨[[Val.fin 1], [Val.fin 2]], .one [Val.fin 0, Val.fin 1], []⟩
      ⟨[[Val.fin 3]], .one [Val.fin 0], []⟩ 1).2.2 (by decide) (by decide) (by decide)
      (by decide) (by decide) (by decide) (by decide)
  exact ⟨c, hok, hcn, hcd, hct⟩

theorem concatenate_ok_props (a b : Features) (tol : Nat) (c : Features)
    (hok : a.concatenate b tol = .ok c) :
    mergeProperties a.properties b.properties (a.ndims : Int) = .ok c.properties := by
  simp only [Features.concatenate] at hok
  split_ifs at hok <;>
    first
      | exact Except.noConfusion hok
      | (split at hok <;>
          first
            | exact Except.noConfusion hok
            | (split at hok <;>
                first
                  | exact Except.noConfusion hok
                  | (rename_i props hprops
                     rw [init_ok _ _ _ _ _ hok, hprops])))

/-- C3: for every successful `a.concatenate(b)` on operands whose
properties follow the `pipeline` convention (entries are mappings with
a two-element numeric `columns` range) and whose `other` key list is
duplicate-free (a Python dict cannot have duplicate keys), the result's
properties are `a`'s updated with every key of `b` except `pipeline`;
a `pipeline` key is present; and it holds `a`'s pipeline entries
followed by `b`'s, each with its `columns` range shifted right by
`a.ndims`. -/
theorem concatenate_merges_properties (a b : Features) (tol : Nat) (c : Features)
    (hok : a.concatenate b tol = .ok c)
    (hwa : pipelineWF a.properties = true) (hwb : pipelineWF b.properties = true)
    (hnd : (b.properties.map Prod.fst).Nodup) :
    (∀ k, k ≠ "pipeline" → propsGet c.properties k =
      if propsHas b.properties k = true then propsGet b.properties k
      else propsGet a.properties k) ∧
    propsHas c.properties "pipeline" = true ∧
    propsGet c.properties "pipeline" = some (.list (pipeList a.properties ++
      (pipeList b.properties).map fun k => (shiftColumns k (a.ndims : Int)).getD k)) := by
  have hminv := concatenate_ok_props a b tol c hok
  obtain ⟨q, hq, hhas, hpipe, hother⟩ :=
    mergeProperties_spec a.properties b.properties (a.ndims : Int) hwa hwb
  rw [hminv] at hq
  injection hq with hq
  subst hq
  exact ⟨fun k hk => hother k hk hnd, hhas, hpipe⟩

/-- C3 witness: a concrete merge — the non-pipeline key `b` is taken
from `other`, the `pipeline` key is present, and `other`'s single
pipeline entry is appended with its columns `[0, 1]` shifted to
`[2, 3]` by `self`'s 2 dimensions. -/
theorem concatenate_merges_properties_witness :
    propsHas (Features.properties ⟨[[Val.fin 1, Val.fin 2, Val.fin 3]], .one [Val.fin 0],
      [("a", .str "x"),
       ("pipeline", .list [.dict [("name", .str "p1"), ("columns", .list [.num 0, .num 2])],
                           .dict [("name", .str "p2"), ("columns", .list [.num 2, .num 3])]]),
       ("b", .str "y")]⟩) "pipeline" = true ∧
    propsGet (Features.properties ⟨[[Val.fin 1, Val.fin 2, Val.fin 3]], .one [Val.fin 0],
      [("a", .str "x"),
       ("pipeline", .list [.dict [("name", .str "p1"), ("columns", .list [.num 0, .num 2])],
                           .dict [("name", .str "p2"), ("columns", .list [.num 2, .num 3])]]),
       ("b", .str "y")]⟩) "pipeline" =
      some (.list (pipeList [("a", .str "x"),
          ("pipeline", .list [.dict [("name", .str "p1"), ("columns", .list [.num 0, .num 2])]])] ++
        (pipeList [("b", .str "y"),
          ("pipeline", .list [.dict [("name", .str "p2"), ("columns", .list [.num 0, .num 1])]])]).map
          (fun k => (shiftColumns k (2 : Int)).getD k))) := by
  have h := concatenate_merges_properties
    ⟨[[Val.fin 1, Val.fin 2]], .one [Val.fin 0],
      [("a", .str "x"),
       ("pipeline", .list [.dict [("name", .str "p1"), ("columns", .list [.num 0, .num 2])]])]⟩
    ⟨[[Val.fin 3]], .one [Val.fin 0],
      [("b", .str "y"),
       ("pipeline", .list [.dict [("name", .str "p2"), ("columns", .list [.num 0, .num 1])]])]⟩
    0
    ⟨[[Val.fin 1, Val.fin 2, Val.fin 3]], .one [Val.fin 0],
      [("a", .str "x"),
       ("pipeline", .list [.dict [("name", .str "p1"), ("columns", .list [.num 0, .num 2])],
                           .dict [("name", .str "p2"), ("columns", .list [.num 2, .num 3])]]),
       ("b", .str "y")]⟩
    rfl (by decide) (by decide) (by decide)
  exact ⟨h.2.1, h.2.2⟩

/-! ## C10: the merge never writes a pre-existing cell -/

theorem halloc_get (σ : Store) (n : HNode) (i : Nat) (h : i < σ.length) :
    (halloc σ n).1.get? i = σ.get? i :=
  List.get?_append h

theorem halloc_get_new (σ : Store) (n : HNode) :
    (halloc σ n).1.get? σ.length = some n :=
  List.get?_concat_length σ n

theorem halloc_length (σ : Store) (n : HNode) :
    (halloc σ n).1.length = σ.length + 1 := by
  simp [halloc]

theorem hset_length (σ : Store) (a : Nat) (n : HNode) :
    (hset σ a n).length = σ.length :=
  List.length_set σ a n

theorem hset_get_other (σ : Store) (a : Nat) (n : HNode) (i : Nat) (h : i ≠ a) :
    (hset σ a n).get? i = σ.get? i := by
  unfold hset
  rw [List.get?_eq_getElem?, List.get?_eq_getElem?, List.getElem?_set_ne (fun he => h he.symm)]

theorem freshClosed_init (σ : Store) : freshClosed σ.length σ := by
  intro j n hj hget c _
  have hlt : j < σ.length := by
    by_contra hge
    rw [List.get?_eq_none.mpr (by omega)] at hget
    exact Option.noConfusion hget
  omega

theorem freshClosed_halloc (m : Nat) (σ : Store) (n : HNode)
    (hm : m ≤ σ.length) (hσ : freshClosed m σ)
    (hn : ∀ c ∈ hchildren n, m ≤ c) :
    freshClosed m (halloc σ n).1 := by
  intro j x hj hget c hc
  by_cases hlt : j < σ.length
  · rw [halloc_get σ n j hlt] at hget
    exact hσ j x hj hget c hc
  · by_cases hje : j = σ.length
    · subst hje
      rw [halloc_get_new] at hget
      cases hget
      exact hn c hc
    · rw [List.get?_eq_none.mpr (by rw [halloc_length]; omega)] at hget
      exact Option.noConfusion hget

theorem freshClosed_hset (m : Nat) (σ : Store) (a : Nat) (n : HNode)
    (hσ : freshClosed m σ) (hn : ∀ c ∈ hchildren n, m ≤ c) :
    freshClosed m (hset σ a n) := by
  intro j x hj hget c hc
  by_cases hja : j = a
  · subst hja
    by_cases hlt : j < σ.length
    · rw [List.get?_eq_getElem?] at hget
      unfold hset at hget
      rw [List.getElem?_set_self (by simpa using hlt)] at hget
      cases hget
      exact hn c hc
    · rw [List.get?_eq_none.mpr (by rw [hset_length]; omega)] at hget
      exact Option.noConfusion hget
  · rw [hset_get_other σ a n j hja] at hget
    exact hσ j x hj hget c hc

theorem fieldsGet_mem (fs : List (String × Nat)) (k : String) (a : Nat)
    (h : fieldsGet fs k = some a) : a ∈ fs.map Prod.snd := by
  unfold fieldsGet at h
  rcases Option.map_eq_some'.mp h with ⟨kv, hfind, hsnd⟩
  exact List.mem_map.mpr ⟨kv, List.mem_of_find?_eq_some hfind, hsnd⟩

theorem fieldsSet_snd_mem (fs : List (String × Nat)) (k : String) (a : Nat) :
    ∀ x ∈ (fieldsSet fs k a).map Prod.snd, x ∈ fs.map Prod.snd ∨ x = a := by
  intro x hx
  unfold fieldsSet at hx
  split at hx
  · rcases List.mem_map.mp hx with ⟨kv, hkv, hsnd⟩
    rcases List.mem_map.mp hkv with ⟨kv0, hkv0, heq⟩
    by_cases hk : (kv0.1 == k) = true
    · rw [if_pos hk] at heq
      right
      rw [← heq] at hsnd
      exact hsnd.symm
    · rw [if_neg hk] at heq
      left
      exact List.mem_map.mpr ⟨kv0, hkv0, heq ▸ hsnd⟩
  · rcases List.mem_map.mp hx with ⟨kv, hkv, hsnd⟩
    rcases List.mem_append.mp hkv with h | h
    · left
      exact List.mem_map.mpr ⟨kv, h, hsnd⟩
    · right
      have : kv = (k, a) := by simpa using h
      rw [this] at hsnd
      exact hsnd.symm

theorem fieldsUpdate_snd_mem (qs fs : List (String × Nat)) :
    ∀ x ∈ (fieldsUpdate fs qs).map Prod.snd,
      x ∈ fs.map Prod.snd ∨ x ∈ qs.map Prod.snd := by
  induction qs generalizing fs with
  | nil =>
    intro x hx
    left
    exact hx
  | cons q rest ih =>
    intro x hx
    simp only [fieldsUpdate, List.foldl_cons] at hx
    rcases ih (fieldsSet fs q.1 q.2) x hx with h | h
    · rcases fieldsSet_snd_mem fs q.1 q.2 x h with h' | h'
      · left
        exact h'
      · right
        rw [h']
        exact List.mem_map.mpr ⟨q, List.mem_cons_self q rest, rfl⟩
    · right
      rcases List.mem_map.mp h with ⟨kv, hkv, hsnd⟩
      exact List.mem_map.mpr ⟨kv, List.mem_cons_of_mem q hkv, hsnd⟩

theorem hcopy_build (σ0 σmid : Store) (n : HNode)
    (hlen : σ0.length ≤ σmid.length)
    (hpre : ∀ i, i < σ0.length → σmid.get? i = σ0.get? i)
    (hcl : ∀ m, m ≤ σ0.length → freshClosed m σ0 → freshClosed m σmid)
    (hn : ∀ c ∈ hchildren n, σ0.length ≤ c) :
    σ0.length ≤ (halloc σmid n).1.length ∧
    (∀ i, i < σ0.length → (halloc σmid n).1.get? i = σ0.get? i) ∧
    σ0.length ≤ (halloc σmid n).2 ∧ (halloc σmid n).2 < (halloc σmid n).1.length ∧
    (∀ m, m ≤ σ0.length → freshClosed m σ0 → freshClosed m (halloc σmid n).1) := by
  refine ⟨by rw [halloc_length]; omega, ?_, hlen, by simp [halloc], ?_⟩
  · intro i hi
    rw [halloc_get _ _ _ (lt_of_lt_of_le hi hlen)]
    exact hpre i hi
  · intro m hm hfc
    exact freshClosed_halloc m σmid n (le_trans hm hlen) (hcl m hm hfc)
      (fun c hc => le_trans hm (le_trans (hn c hc) (le_refl _)))

theorem hcopy_spec (fuel : Nat) :
    (∀ σ a σ' a', hcopy σ fuel a = some (σ', a') →
      σ.length ≤ σ'.length ∧
      (∀ i, i < σ.length → σ'.get? i = σ.get? i) ∧
      σ.length ≤ a' ∧ a' < σ'.length ∧
      (∀ m, m ≤ σ.length → freshClosed m σ → freshClosed m σ')) ∧
    (∀ σ es σ' es', hcopyList σ fuel es = some (σ', es') →
      σ.length ≤ σ'.length ∧
      (∀ i, i < σ.length → σ'.get? i = σ.get? i) ∧
      (∀ x ∈ es', σ.length ≤ x ∧ x < σ'.length) ∧
      (∀ m, m ≤ σ.length → freshClosed m σ → freshClosed m σ')) ∧
    (∀ σ fs σ' fs', hcopyFields σ fuel fs = some (σ', fs') →
      σ.length ≤ σ'.length ∧
      (∀ i, i < σ.length → σ'.get? i = σ.get? i) ∧
      (∀ x ∈ fs'.map Prod.snd, σ.length ≤ x ∧ x < σ'.length) ∧
      (∀ m, m ≤ σ.length → freshClosed m σ → freshClosed m σ')) := by
  induction fuel with
  | zero =>
    refine ⟨?_, ?_, ?_⟩
    · intro σ a σ' a' h
      rw [hcopy] at h
      exact Option.noConfusion h
    · intro σ es σ' es' h
      cases es with
      | nil =>
        rw [hcopyList] at h
        cases h
        exact ⟨le_refl _, fun i _ => rfl,
          fun x hx => absurd hx (List.not_mem_nil x), fun m _ hfc => hfc⟩
      | cons a rest =>
        rw [hcopyList, hcopy] at h
        exact Option.noConfusion h
    · intro σ fs σ' fs' h
      cases fs with
      | nil =>
        rw [hcopyFields] at h
        cases h
        exact ⟨le_refl _, fun i _ => rfl,
          fun x hx => absurd hx (by simp), fun m _ hfc => hfc⟩
      | cons kv rest =>
        obtain ⟨k, a⟩ := kv
        rw [hcopyFields, hcopy] at h
        exact Option.noConfusion h
  | succ fuel ih =>
    obtain ⟨ihc, ihl, ihf⟩ := ih
    have hc : ∀ σ a σ' a', hcopy σ (fuel + 1) a = some (σ', a') →
        σ.length ≤ σ'.length ∧
        (∀ i, i < σ.length → σ'.get? i = σ.get? i) ∧
        σ.length ≤ a' ∧ a' < σ'.length ∧
        (∀ m, m ≤ σ.length → freshClosed m σ → freshClosed m σ') := by
      intro σ a σ' a' h
      rw [hcopy] at h
      split at h
      · exact Option.noConfusion h
      · cases h
        exact hcopy_build σ σ (.hstr _) (le_refl _) (fun _ _ => rfl) (fun _ _ hfc => hfc)
          (fun c hc => absurd hc (by simp [hchildren]))
      · cases h
        exact hcopy_build σ σ (.hnum _) (le_refl _) (fun _ _ => rfl) (fun _ _ hfc => hfc)
          (fun c hc => absurd hc (by simp [hchildren]))
      · cases h
        exact hcopy_build σ σ (.harr _) (le_refl _) (fun _ _ => rfl) (fun _ _ hfc => hfc)
          (fun c hc => absurd hc (by simp [hchildren]))
      · rename_i es _
        split at h
        · exact Option.noConfusion h
        · rename_i σ1 es' heq1
          cases h
          obtain ⟨l1, p1, e1, c1⟩ := ihl σ es σ1 es' heq1
          exact hcopy_build σ σ1 (.hlist es') l1 p1 c1 (fun c hc => (e1 c hc).1)
      · rename_i fs _
        split at h
        · exact Option.noConfusion h
        · rename_i σ1 fs' heq1
          cases h
          obtain ⟨l1, p1, e1, c1⟩ := ihf σ fs σ1 fs' heq1
          exact hcopy_build σ σ1 (.hdict fs') l1 p1 c1 (fun c hc => (e1 c hc).1)
    have hl : ∀ es σ σ' es', hcopyList σ (fuel + 1) es = some (σ', es') →
        σ.length ≤ σ'.length ∧
        (∀ i, i < σ.length → σ'.get? i = σ.get? i) ∧
        (∀ x ∈ es', σ.length ≤ x ∧ x < σ'.length) ∧
        (∀ m, m ≤ σ.length → freshClosed m σ → freshClosed m σ') := by
      intro es
      induction es with
      | nil =>
        intro σ σ' es' h
        rw [hcopyList] at h
        cases h
        exact ⟨le_refl _, fun i _ => rfl,
          fun x hx => absurd hx (List.not_mem_nil x), fun m _ hfc => hfc⟩
      | cons a rest ihrest =>
        intro σ σ' es' h
        rw [hcopyList] at h
        split at h
        · exact Option.noConfusion h
        · rename_i σ1 a1 heq1
          split at h
          · exact Option.noConfusion h
          · rename_i σ2 rest' heq2
            obtain ⟨h1, h2⟩ := Prod.mk.inj (Option.some.inj h)
            subst h1
            subst h2
            obtain ⟨l1, p1, b1, b2, c1⟩ := hc σ a σ1 a1 heq1
            obtain ⟨l2, p2, e2, c2⟩ := ihrest σ1 σ2 rest' heq2
            refine ⟨le_trans l1 l2, ?_, ?_, ?_⟩
            · intro i hi
              rw [p2 i (lt_of_lt_of_le hi l1)]
              exact p1 i hi
            · intro x hx
              rcases List.mem_cons.mp hx with h' | h'
              · subst h'
                exact ⟨b1, lt_of_lt_of_le b2 l2⟩
              · obtain ⟨hx1, hx2⟩ := e2 x h'
                exact ⟨le_trans l1 hx1, hx2⟩
            · intro m hm hfc
              exact c2 m (le_trans hm l1) (c1 m hm hfc)
    have hf : ∀ fs σ σ' fs', hcopyFields σ (fuel + 1) fs = some (σ', fs') →
        σ.length ≤ σ'.length ∧
        (∀ i, i < σ.length → σ'.get? i = σ.get? i) ∧
        (∀ x ∈ fs'.map Prod.snd, σ.length ≤ x ∧ x < σ'.length) ∧
        (∀ m, m ≤ σ.length → freshClosed m σ → freshClosed m σ') := by
      intro fs
      induction fs with
      | nil =>
        intro σ σ' fs' h
        rw [hcopyFields] at h
        cases h
        exact ⟨le_refl _, fun i _ => rfl,
          fun x hx => absurd hx (by simp), fun m _ hfc => hfc⟩
      | cons kv rest ihrest =>
        obtain ⟨k, a⟩ := kv
        intro σ σ' fs' h
        rw [hcopyFields] at h
        split at h
        · exact Option.noConfusion h
        · rename_i σ1 a1 heq1
          split at h
          · exact Option.noConfusion h
          · rename_i σ2 rest' heq2
            obtain ⟨h1, h2⟩ := Prod.mk.inj (Option.some.inj h)
            subst h1
            subst h2
            obtain ⟨l1, p1, b1, b2, c1⟩ := hc σ a σ1 a1 heq1
            obtain ⟨l2, p2, e2, c2⟩ := ihrest σ1 σ2 rest' heq2
            refine ⟨le_trans l1 l2, ?_, ?_, ?_⟩
            · intro i hi
              rw [p2 i (lt_of_lt_of_le hi l1)]
              exact p1 i hi
            · intro x hx
              simp only [List.map_cons, List.mem_cons] at hx
              rcases hx with h' | h'
              · subst h'
                exact ⟨b1, lt_of_lt_of_le b2 l2⟩
              · obtain ⟨hx1, hx2⟩ := e2 x h'
                exact ⟨le_trans l1 hx1, hx2⟩
            · intro m hm hfc
              exact c2 m (le_trans hm l1) (c1 m hm hfc)
    exact ⟨hc, fun σ es => hl es σ, fun σ fs => hf fs σ⟩

/-- The append loop of the property merge only ever writes cells at or
above the high-water mark `m`: with the merged dict and every pipeline
entry to append living above `m` and the store closed above `m`, every
cell below `m` is untouched, the store only grows, and closure above
`m` is maintained. -/
theorem hmergeLoop_spec (nd : Int) (m : Nat) :
    ∀ (ks : List Nat) (σ : Store) (p : Nat),
      m ≤ σ.length → freshClosed m σ → m ≤ p → (∀ k ∈ ks, m ≤ k) →
      (∀ i, i < m → (hmergeLoop nd σ p ks).1.get? i = σ.get? i) ∧
      m ≤ (hmergeLoop nd σ p ks).1.length ∧
      freshClosed m (hmergeLoop nd σ p ks).1 := by
  intro ks
  induction ks with
  | nil =>
    intro σ p hml hfc hmp hks
    exact ⟨fun _ _ => rfl, hml, hfc⟩
  | cons k rest ihrest =>
    intro σ p hml hfc hmp hks
    rw [hmergeLoop]
    split
    · rename_i pf hgp
      split
      · rename_i pl hfg
        have hpl : m ≤ pl := hfc p _ hmp hgp pl (fieldsGet_mem pf "pipeline" pl hfg)
        split
        · rename_i l hgl
          simp only []
          have hmk : m ≤ k := hks k (List.mem_cons_self k rest)
          have hks' : ∀ x ∈ rest, m ≤ x := fun x hx => hks x (List.mem_cons_of_mem k hx)
          have hlch : ∀ c ∈ l ++ [k], m ≤ c := by
            intro c hc
            rcases List.mem_append.mp hc with h' | h'
            · exact hfc pl _ hpl hgl c h'
            · have hck : c = k := by simpa using h'
              subst hck
              exact hmk
          set S1 := hset σ pl (HNode.hlist (l ++ [k])) with hS1
          have hS1len : S1.length = σ.length := by rw [hS1]; exact hset_length _ _ _
          have hS1cl : freshClosed m S1 := by
            rw [hS1]
            exact freshClosed_hset m σ pl _ hfc hlch
          have hS1pre : ∀ i, i < m → S1.get? i = σ.get? i := by
            intro i hi
            rw [hS1]
            exact hset_get_other σ pl _ i (by omega)
          have hmS1 : m ≤ S1.length := by rw [hS1len]; exact hml
          split
          · rename_i kf hgk
            split
            · rename_i ca hfca
              split
              · rename_i c0a c1a tail hgca
                split
                · rename_i c0 c1 hg0 hg1
                  set A2 := halloc S1 (HNode.hnum (c0 + nd)) with hA2
                  set A3 := halloc A2.1 (HNode.hnum (c1 + nd)) with hA3
                  set A4 := halloc A3.1 (HNode.hlist [A2.2, A3.2]) with hA4
                  set S5 := hset A4.1 k (HNode.hdict (fieldsSet kf "columns" A4.2)) with hS5
                  have hA2len : A2.1.length = S1.length + 1 := by rw [hA2]; exact halloc_length _ _
                  have hA3len : A3.1.length = S1.length + 2 := by
                    rw [hA3, halloc_length]
                    omega
                  have hA4len : A4.1.length = S1.length + 3 := by
                    rw [hA4, halloc_length]
                    omega
                  have hA22 : A2.2 = S1.length := by rw [hA2]; rfl
                  have hA32 : A3.2 = A2.1.length := by rw [hA3]; rfl
                  have hA42 : A4.2 = A3.1.length := by rw [hA4]; rfl
                  have hA2cl : freshClosed m A2.1 := by
                    rw [hA2]
                    exact freshClosed_halloc m S1 _ hmS1 hS1cl
                      (fun c hc => absurd hc (by simp [hchildren]))
                  have hA3cl : freshClosed m A3.1 := by
                    rw [hA3]
                    exact freshClosed_halloc m A2.1 _ (by omega) hA2cl
                      (fun c hc => absurd hc (by simp [hchildren]))
                  have hA4cl : freshClosed m A4.1 := by
                    rw [hA4]
                    refine freshClosed_halloc m A3.1 _ (by omega) hA3cl ?_
                    intro c hc
                    simp only [hchildren, List.mem_cons, List.not_mem_nil, or_false] at hc
                    rcases hc with rfl | rfl
                    · omega
                    · omega
                  have kfch : ∀ c ∈ kf.map Prod.snd, m ≤ c := fun c hc => hS1cl k _ hmk hgk c hc
                  have hS5cl : freshClosed m S5 := by
                    rw [hS5]
                    refine freshClosed_hset m A4.1 k _ hA4cl ?_
                    intro c hc
                    rcases fieldsSet_snd_mem kf "columns" A4.2 c hc with h' | h'
                    · exact kfch c h'
                    · omega
                  have hS5len : S5.length = S1.length + 3 := by
                    rw [hS5, hset_length]
                    omega
                  have hS5pre : ∀ i, i < m → S5.get? i = σ.get? i := by
                    intro i hi
                    rw [hS5, hset_get_other _ _ _ _ (by omega), hA4,
                      halloc_get _ _ _ (by omega), hA3, halloc_get _ _ _ (by omega), hA2,
                      halloc_get _ _ _ (by omega)]
                    exact hS1pre i hi
                  obtain ⟨rpre, rlen, rcl⟩ := ihrest S5 p (by omega) hS5cl hmp hks'
                  refine ⟨?_, rlen, rcl⟩
                  intro i hi
                  rw [rpre i hi]
                  exact hS5pre i hi
                · exact ⟨hS1pre, hmS1, hS1cl⟩
              · exact ⟨hS1pre, hmS1, hS1cl⟩
            · exact ⟨hS1pre, hmS1, hS1cl⟩
          · exact ⟨hS1pre, hmS1, hS1cl⟩
        · exact ⟨fun _ _ => rfl, hml, hfc⟩
      · exact ⟨fun _ _ => rfl, hml, hfc⟩
    · exact ⟨fun _ _ => rfl, hml, hfc⟩

/-- The heap-level property merge of `concatenate` never writes a
pre-existing cell: whatever it returns, every address of the input
store still holds its original node. -/
theorem hmergeProps_keeps (σ : Store) (pa pb : Nat) (nd : Int) (fuel : Nat) :
    ∀ i, i < σ.length → (hmergeProps σ pa pb nd fuel).1.get? i = σ.get? i := by
  intro i hi
  rw [hmergeProps]
  split
  · rfl
  · rename_i σ1 p heq1
    obtain ⟨l1, p1, bp1, bp2, c1⟩ := (hcopy_spec fuel).1 σ pa σ1 p heq1
    split
    · exact p1 i hi
    · rename_i σ2 q heq2
      obtain ⟨l2, p2, bq1, bq2, c2⟩ := (hcopy_spec fuel).1 σ1 pb σ2 q heq2
      have hpre2 : ∀ j, j < σ.length → σ2.get? j = σ.get? j := by
        intro j hj
        rw [p2 j (lt_of_lt_of_le hj l1)]
        exact p1 j hj
      have hl2 : σ.length ≤ σ2.length := le_trans l1 l2
      have hfc2 : freshClosed σ.length σ2 :=
        c2 σ.length l1 (c1 σ.length (le_refl _) (freshClosed_init σ))
      have hmp : σ.length ≤ p := bp1
      have hmq : σ.length ≤ q := le_trans l1 bq1
      split
      · rename_i pf qf hgp hgq
        simp only []
        have hpfch : ∀ c ∈ pf.map Prod.snd, σ.length ≤ c := fun c hc => hfc2 p _ hmp hgp c hc
        have hqfch : ∀ c ∈ qf.map Prod.snd, σ.length ≤ c := fun c hc => hfc2 q _ hmq hgq c hc
        have hpf1ch : ∀ c ∈ (fieldsUpdate pf (qf.filter fun kv => kv.1 != "pipeline")).map
            Prod.snd, σ.length ≤ c := by
          intro c hc
          rcases fieldsUpdate_snd_mem _ pf c hc with h' | h'
          · exact hpfch c h'
          · rcases List.mem_map.mp h' with ⟨kv, hkv, hsnd⟩
            exact hqfch c (List.mem_map.mpr ⟨kv, List.mem_of_mem_filter hkv, hsnd⟩)
        have hpre3 : ∀ j, j < σ.length →
            (hset σ2 p (HNode.hdict (fieldsUpdate pf
              (qf.filter fun kv => kv.1 != "pipeline")))).get? j = σ.get? j := by
          intro j hj
          rw [hset_get_other _ _ _ _ (by omega)]
          exact hpre2 j hj
        have hlen3 : (hset σ2 p (HNode.hdict (fieldsUpdate pf
            (qf.filter fun kv => kv.1 != "pipeline")))).length = σ2.length := hset_length _ _ _
        have hcl3 : freshClosed σ.length (hset σ2 p (HNode.hdict (fieldsUpdate pf
            (qf.filter fun kv => kv.1 != "pipeline")))) :=
          freshClosed_hset _ _ _ _ hfc2 hpf1ch
        set PF1 := fieldsUpdate pf (List.filter (fun kv => kv.1 != "pipeline") qf) with hPF1
        set S3 := hset σ2 p (HNode.hdict PF1) with hS3
        set E := halloc S3 (HNode.hlist []) with hE
        set S4 := hset E.1 p (HNode.hdict (fieldsSet PF1 "pipeline" E.2)) with hS4
        have hlen3x : σ.length ≤ S3.length := by rw [hlen3]; exact hl2
        have hE1len : E.1.length = S3.length + 1 := by rw [hE]; exact halloc_length _ _
        have hE2 : E.2 = S3.length := by rw [hE]; rfl
        have hEcl : freshClosed σ.length E.1 := by
          rw [hE]
          exact freshClosed_halloc _ _ _ hlen3x hcl3 (fun c hc => absurd hc (by simp [hchildren]))
        have hS4pre : ∀ j, j < σ.length → S4.get? j = σ.get? j := by
          intro j hj
          rw [hS4, hset_get_other _ _ _ _ (by omega), hE, halloc_get _ _ _ (by omega)]
          exact hpre3 j hj
        have hS4len : S4.length = S3.length + 1 := by rw [hS4, hset_length]; omega
        have hS4cl : freshClosed σ.length S4 := by
          rw [hS4]
          refine freshClosed_hset _ _ _ _ hEcl ?_
          intro c hc
          rcases fieldsSet_snd_mem PF1 "pipeline" E.2 c hc with h' | h'
          · exact hpf1ch c h'
          · omega
        split_ifs
        · -- outer: qf has pipeline; inner: PF1 has pipeline, σ4 = S3
          split
          · rename_i plb hplb
            split
            · rename_i ks hks0
              have hplbm : σ.length ≤ plb := hqfch plb (fieldsGet_mem qf "pipeline" plb hplb)
              have hksch : ∀ x ∈ ks, σ.length ≤ x := fun x hx => hcl3 plb _ hplbm hks0 x hx
              split
              · rename_i σ5 heq5
                have hrun := (hmergeLoop_spec nd σ.length ks S3 p hlen3x hcl3 hmp hksch).1 i hi
                rw [heq5] at hrun
                exact hrun.trans (hpre3 i hi)
              · rename_i σ5 heq5
                have hrun := (hmergeLoop_spec nd σ.length ks S3 p hlen3x hcl3 hmp hksch).1 i hi
                rw [heq5] at hrun
                exact hrun.trans (hpre3 i hi)
            · exact hpre3 i hi
          · exact hpre3 i hi
        · -- outer: qf has pipeline; inner false, σ4 = S4
          split
          · rename_i plb hplb
            split
            · rename_i ks hks0
              have hplbm : σ.length ≤ plb := hqfch plb (fieldsGet_mem qf "pipeline" plb hplb)
              have hksch : ∀ x ∈ ks, σ.length ≤ x := fun x hx => hS4cl plb _ hplbm hks0 x hx
              split
              · rename_i σ5 heq5
                have hrun := (hmergeLoop_spec nd σ.length ks S4 p (by omega) hS4cl hmp hksch).1 i hi
                rw [heq5] at hrun
                exact hrun.trans (hS4pre i hi)
              · rename_i σ5 heq5
                have hrun := (hmergeLoop_spec nd σ.length ks S4 p (by omega) hS4cl hmp hksch).1 i hi
                rw [heq5] at hrun
                exact hrun.trans (hS4pre i hi)
            · exact hS4pre i hi
          · exact hS4pre i hi
        · exact hpre3 i hi
        · exact hS4pre i hi
      · exact hpre2 i hi

/-- **C10.** For every two Features a and b, a successful or failing
call a.concatenate(b) leaves both operands unchanged.  In the model the
data and times arrays are immutable values (the source never writes
into them), so the claim rests on the property dictionaries, which the
merge mutates through the heap: for every input store — holding both
operands' property structures, including their `pipeline` entries and
`columns` ranges — every pre-existing cell of the store still holds its
original node after `concatenateH`, whether the call returns `ok` or
`error`.  The merge and the column shifting write only to the fresh
cells created by the deep copies. -/
theorem concatenate_preserves_operands (σ : Store) (d1 : Mat) (t1 : TArr) (pa : Nat)
    (d2 : Mat) (t2 : TArr) (pb : Nat) (tol fuel : Nat) (i : Nat) (hi : i < σ.length) :
    (concatenateH σ d1 t1 pa d2 t2 pb tol fuel).1.get? i = σ.get? i := by
  rw [concatenateH]
  simp only []
  split
  · rfl
  split
  · rfl
  split
  · split
    · rename_i σ' p heq
      have hkeep := hmergeProps_keeps σ pa pb (Mat.ncols d1 : Int) fuel i hi
      rw [heq] at hkeep
      split
      · exact hkeep
      · exact hkeep
    · rename_i σ' heq
      have hkeep := hmergeProps_keeps σ pa pb (Mat.ncols d1 : Int) fuel i hi
      rw [heq] at hkeep
      exact hkeep
  · rfl

/-- C10 witness: a concrete one-cell store (an empty properties dict
shared by both operands) is untouched at address 0 by a concrete
concatenation. -/
theorem concatenate_preserves_operands_witness :
    (0 : Nat) < ([HNode.hdict []] : Store).length ∧
    (concatenateH [HNode.hdict []] [[Val.fin 1]] (.one [Val.fin 0]) 0
        [[Val.fin 2]] (.one [Val.fin 0]) 0 0 4).1.get? 0 =
      ([HNode.hdict []] : Store).get? 0 :=
  ⟨by decide,
   concatenate_preserves_operands [HNode.hdict []] [[Val.fin 1]] (.one [Val.fin 0]) 0
     [[Val.fin 2]] (.one [Val.fin 0]) 0 0 4 0 (by decide)⟩
